import Mathlib

/-!
Verification development for the autobattler game-tree search engine.

The Rust source is shallowly embedded: `f32` scores are modelled as extended
rationals (`Xq`), fallible operations return pairs/options, and the solver's
explicit work-stack loop is run with explicit fuel so every definition stays
executable. Definitions mirror the source files `value.rs`, `weapon.rs`,
`action.rs`, `party_member.rs`, `party.rs`, `conflict.rs`,
`utility_value.rs`, `action_iterator.rs` and `solver.rs`.

Snapshot notes reflected in the embedding:
* `party.rs::retreat` assigns a `can_act` field that `party_member.rs` does
  not declare; the embedding keeps the fields `party_member.rs` declares, so
  `retreat` only sets the party-level `retreated` flag.
* `conflict.rs` declares a `turn` field that `solver.rs` never constructs or
  reads; the embedding uses the two-field `Conflict` the solver builds.
* `action_iterator.rs` constructs its emitted item from `action`, `source`
  and `target` fields (it predates the `AppliedAction` enum of `action.rs`);
  the embedding emits `AppliedAction.Targeted` carrying those same fields,
  which is the shape `solver.rs` consumes.
* Rust panics (out-of-range indexing, `expect`) are modelled by returning a
  neutral value at the panic site; every theorem that could touch such a
  site carries hypotheses that keep the source panic-free.
-/

namespace Autobattler

/-- Extended rationals standing in for the `f32` scores of the source:
negative infinity, a finite rational, or positive infinity. -/
inductive Xq where
  | ninf : Xq
  | fin (q : ℚ) : Xq
  | pinf : Xq
deriving DecidableEq

/-- `a <= b` on scores, as `f32` comparison behaves on the values the engine
produces (no NaNs arise: the engine only compares, maxes and mins). -/
def Xq.ble : Xq → Xq → Bool
  | .ninf, _ => true
  | _, .pinf => true
  | .fin a, .fin b => decide (a ≤ b)
  | .pinf, _ => false
  | .fin _, .ninf => false

/-- `a < b` on scores. -/
def Xq.blt (a b : Xq) : Bool := !(Xq.ble b a)

/-- `f32::is_finite`. -/
def Xq.isFinite : Xq → Bool
  | .fin _ => true
  | _ => false

/-- `f32::max`. -/
def Xq.max (a b : Xq) : Xq := if Xq.ble a b then b else a

/-- `f32::min`. -/
def Xq.min (a b : Xq) : Xq := if Xq.ble a b then a else b

/-- `value.rs::TerminalState`: a classification tag carrying a score. -/
inductive TerminalState where
  | Win (v : Xq)
  | Defeat (v : Xq)
  | Remain (v : Xq)
  | Retreat (v : Xq)
  | Heuristic (v : Xq)
  | OpenUnexplored (v : Xq)
deriving DecidableEq

/-- `TerminalState::value`. -/
def TerminalState.value : TerminalState → Xq
  | .Win v => v
  | .Defeat v => v
  | .Remain v => v
  | .Retreat v => v
  | .Heuristic v => v
  | .OpenUnexplored v => v

/-- `TerminalState::is_negative`. -/
def TerminalState.is_negative (t : TerminalState) : Bool := Xq.blt t.value (Xq.fin 0)

/-- `f32::is_finite` reached through `TerminalState`'s deref to its score. -/
def TerminalState.isFinite (t : TerminalState) : Bool := t.value.isFinite

/-- `value.rs::Value`: the alpha-beta triplet around the current value. -/
structure Value where
  value : TerminalState
  alpha : Xq
  beta : Xq
deriving DecidableEq

/-- `Value::new_with`. -/
def Value.new_with (alpha : Xq) (value : TerminalState) (beta : Xq) : Value :=
  ⟨value, alpha, beta⟩

/-- `Value::new`: default alpha and beta bounds. -/
def Value.new (value : TerminalState) : Value := Value.new_with Xq.ninf value Xq.pinf

/-- `Value::with_value`: keep the window, replace the value. -/
def Value.with_value (v : Value) (value : TerminalState) : Value :=
  Value.new_with v.alpha value v.beta

/-- `Value::is_alpha_cutoff`: finite score at or below alpha. -/
def Value.is_alpha_cutoff (v : Value) : Bool :=
  v.value.isFinite && Xq.ble v.value.value v.alpha

/-- `Value::is_beta_cutoff`: finite score at or above beta. -/
def Value.is_beta_cutoff (v : Value) : Bool :=
  v.value.isFinite && Xq.ble v.beta v.value.value

/-- `value.rs::Cutoff`. -/
inductive Cutoff where
  | None
  | Alpha
  | Beta
deriving DecidableEq

/-- `weapon.rs::Weapon`. -/
inductive Weapon where
  | Fists (damage : ℚ)
  | Stick (damage : ℚ)
deriving DecidableEq

/-- `Weapon::damage`. -/
def Weapon.damage : Weapon → ℚ
  | .Fists d => d
  | .Stick d => d

/-- `action.rs::SimpleAttackAction`. -/
structure SimpleAttackAction where
  weapon : Option Weapon
  damage : ℚ
deriving DecidableEq

/-- `action.rs::Action`. -/
inductive Action where
  | SimpleAttack (attack : SimpleAttackAction)
deriving DecidableEq

/-- `party.rs::Participant`. -/
structure Participant where
  party_id : Nat
  member_id : Nat
deriving DecidableEq

/-- `action.rs::TargetedAction`. -/
structure TargetedAction where
  action : Action
  source : Participant
  target : Participant
deriving DecidableEq

/-- `action.rs::AppliedAction`. -/
inductive AppliedAction where
  | Flee
  | Targeted (action : TargetedAction)
deriving DecidableEq

/-- `party_member.rs::PartyMember`. -/
structure PartyMember where
  id : Nat
  health : ℚ
  damage_taken : ℚ
  weapon : Weapon
deriving DecidableEq

/-- `PartyMember::is_dead`: health at or below zero. -/
def PartyMember.is_dead (m : PartyMember) : Bool := decide (m.health ≤ 0)

/-- `PartyMember::handle_simple_attack`: returns whether the attack took
hold together with the updated member (the source mutates in place). -/
def PartyMember.handle_simple_attack (m : PartyMember) (attack : SimpleAttackAction) :
    Bool × PartyMember :=
  if m.is_dead then (false, m)
  else
    (true,
      { m with
        health := max (m.health - attack.damage) 0,
        damage_taken := m.damage_taken + attack.damage })

/-- `PartyMember::handle_action`. -/
def PartyMember.handle_action (m : PartyMember) (a : Action) : Bool × PartyMember :=
  match a with
  | .SimpleAttack attack => m.handle_simple_attack attack

/-- `PartyMember::can_act` (in `party_member.rs` this is just liveness). -/
def PartyMember.can_act (m : PartyMember) : Bool := !m.is_dead

/-- `PartyMember::is_applicable`: the action's target must not be dead. -/
def PartyMember.is_applicable (m : PartyMember) (_action : Action) : Bool := !m.is_dead

/-- `party_member.rs::AttackIterator` state. -/
structure AttackIterator where
  member : PartyMember
  index : Nat
deriving DecidableEq

/-- `AttackIterator::next`: the single equipped-weapon attack, then nothing. -/
def AttackIterator.next (it : AttackIterator) : Option Action × AttackIterator :=
  match it.index with
  | 0 =>
    let damage := it.member.weapon.damage
    let action := Action.SimpleAttack ⟨some it.member.weapon, damage⟩
    (some action, { it with index := it.index + 1 })
  | _ => (none, it)

/-- `PartyMember::actions`. -/
def PartyMember.actions (m : PartyMember) : AttackIterator := ⟨m, 0⟩

/-- `party.rs::Party` (the fields `party.rs` declares). -/
structure Party where
  id : Nat
  members : List PartyMember
  retreated : Bool
deriving DecidableEq

/-- `Party::retreat`. The source also clears a per-member `can_act` flag
that `party_member.rs` does not declare; only the party flag is kept. -/
def Party.retreat (p : Party) : Party := { p with retreated := true }

/-- `Party::is_defeated`: every member is dead (vacuously true when empty). -/
def Party.is_defeated (p : Party) : Bool := p.members.all PartyMember.is_dead

/-- `Party::has_retreated`. -/
def Party.has_retreated (p : Party) : Bool := p.retreated

/-- `Party::can_act`. -/
def Party.can_act (p : Party) : Bool := p.members.any PartyMember.can_act

/-- The member-list loop of `Party::replace_member`: replace the first
member with a matching id, then stop. -/
def replace_member_list : List PartyMember → PartyMember → List PartyMember
  | [], _ => []
  | m' :: rest, m => if m'.id = m.id then m :: rest else m' :: replace_member_list rest m

/-- `Party::replace_member`. -/
def Party.replace_member (p : Party) (m : PartyMember) : Party :=
  { p with members := replace_member_list p.members m }

/-- `Party::len`. -/
def Party.len (p : Party) : Nat := p.members.length

/-- `conflict.rs::Conflict` as `solver.rs` constructs it. -/
structure Conflict where
  initiator : Party
  opponent : Party
deriving DecidableEq

/-- `action_iterator.rs::ActionTargetIterator` state: the target sweep of a
single member's actions. The Rust `Range<usize>` is its two endpoints. -/
structure ActionTargetIterator where
  enemy_index : Nat
  enemies_start : Nat
  enemies_end : Nat
  iter : Option AttackIterator
  action : Option Action
deriving DecidableEq

/-- `ActionTargetIterator::new`. -/
def ActionTargetIterator.new (member : PartyMember) (enemies_start enemies_end : Nat) :
    ActionTargetIterator :=
  { enemy_index := enemies_start, enemies_start, enemies_end,
    iter := some member.actions, action := none }

/-- `ActionTargetIterator::next`: emit the current action for the next
enemy index, resetting to the first enemy and pulling a fresh action when
the sweep wraps; discard the generator once the actions are exhausted. -/
def ActionTargetIterator.next (s : ActionTargetIterator) :
    Option (Action × Nat) × ActionTargetIterator :=
  match s.iter with
  | none => (none, s)
  | some ai =>
    let s := if s.enemy_index ≥ s.enemies_end then
        { s with enemy_index := s.enemies_start, action := none }
      else s
    let pulled := if s.action.isNone then
        let r := ai.next
        ({ s with action := r.1 }, r.2)
      else (s, ai)
    let s := pulled.1
    let ai := pulled.2
    match s.action with
    | some action =>
      let index := s.enemy_index
      (some (action, index), { s with enemy_index := s.enemy_index + 1, iter := some ai })
    | none => (none, { s with iter := none })

/-- `action_iterator.rs::ActionIterator` state. -/
structure ActionIterator where
  current : Party
  opponent : Party
  current_index : Nat
  range_start : Nat
  range_end : Nat
  iter : Option ActionTargetIterator
deriving DecidableEq

/-- `ActionIterator::new_in`. -/
def ActionIterator.new_in (current opponent : Party) (range_start range_end : Nat) :
    ActionIterator :=
  { current, opponent, current_index := range_start, range_start, range_end, iter := none }

/-- `ActionIterator::new`: all current members target all enemy members. -/
def ActionIterator.new (current opponent : Party) : ActionIterator :=
  ActionIterator.new_in current opponent 0 current.len

/-- Remaining-emission bound for an `ActionTargetIterator`, used as the
termination fuel of the generator loop. -/
def atiMeasure (t : ActionTargetIterator) : Nat :=
  match t.iter with
  | none => 0
  | some ai =>
    if t.enemy_index ≥ t.enemies_end then
      (1 - ai.index) * (t.enemies_end - t.enemies_start + 1)
    else
      match t.action with
      | some _ =>
        (t.enemies_end - t.enemy_index) + (1 - ai.index) * (t.enemies_end - t.enemies_start + 1)
      | none => if ai.index = 0 then t.enemies_end - t.enemy_index else 0

/-- The measure of the sweep an `ActionIterator` would create for its next
eligible member. -/
def aiIterMeasure (s : ActionIterator) : Nat :=
  match s.iter with
  | some t => atiMeasure t
  | none => s.opponent.members.length + 1

/-- Loop measure for `ActionIterator::next`: lexicographic combination of
the remaining member range and the current sweep. -/
def aiMeasure (s : ActionIterator) : Nat :=
  (s.range_end - s.current_index) * (s.opponent.members.length + 2) + aiIterMeasure s

/-- One fuelled run of the `loop` body of `ActionIterator::next`. A `none`
result with the state unchanged stands in both for the generator being
exhausted and for the source's (unreachable) indexing panics. -/
def aiNextLoop : Nat → ActionIterator → Option AppliedAction × ActionIterator
  | 0, s => (none, s)
  | fuel + 1, s =>
    if s.current_index ≥ s.range_end then (none, s)
    else
      match s.current.members[s.current_index]? with
      | none => (none, s)
      | some member =>
        if !member.can_act then
          aiNextLoop fuel { s with current_index := s.current_index + 1 }
        else
          let it := match s.iter with
            | none => ActionTargetIterator.new member 0 s.opponent.members.length
            | some i => i
          match it.next with
          | (none, _it') =>
            aiNextLoop fuel { s with current_index := s.current_index + 1, iter := none }
          | (some (action, target_index), it') =>
            let s := { s with iter := some it' }
            match s.opponent.members[target_index]? with
            | none => (none, s)
            | some opponentm =>
              if !opponentm.is_applicable action then aiNextLoop fuel s
              else
                let source : Participant := ⟨s.current.id, member.id⟩
                let target : Participant := ⟨s.opponent.id, opponentm.id⟩
                (some (AppliedAction.Targeted ⟨action, source, target⟩), s)

/-- `ActionIterator::next`: run the loop with exactly enough fuel. -/
def ActionIterator.next (s : ActionIterator) : Option AppliedAction × ActionIterator :=
  aiNextLoop (aiMeasure s + 1) s

/-- All moves the generator will still emit, with explicit fuel. -/
def emitListFuel : Nat → ActionIterator → List AppliedAction
  | 0, _ => []
  | fuel + 1, s =>
    match ActionIterator.next s with
    | (none, _) => []
    | (some a, s') => a :: emitListFuel fuel s'

/-- All moves the generator will still emit. -/
def emitList (s : ActionIterator) : List AppliedAction := emitListFuel (aiMeasure s + 1) s

/-- `utility_value.rs::get_utility`. -/
def get_utility (state : Conflict) : TerminalState :=
  if state.initiator.is_defeated || state.initiator.has_retreated then
    let utility : ℚ := (state.initiator.members.map (fun m => -m.damage_taken)).sum
    if state.initiator.is_defeated then TerminalState.Defeat (Xq.fin utility)
    else TerminalState.Retreat (Xq.fin (utility * (1 / 10)))
  else
    let utility : ℚ := (state.initiator.members.map (fun m => max m.health 0)).sum
    if state.opponent.is_defeated then TerminalState.Win (Xq.fin utility)
    else if state.opponent.has_retreated then TerminalState.Remain (Xq.fin (utility * (1 / 10)))
    else TerminalState.Heuristic (Xq.fin (utility * (1 / 10)))

/-- Placeholder member standing in for the source's out-of-range indexing
panic in `minimax_expand`; never reached under the id/index discipline the
tests set up. -/
def dummyMember : PartyMember := ⟨0, 0, 0, Weapon.Fists 0⟩

/-- `solver.rs::Node`. -/
structure Node where
  id : Nat
  parent_id : Option Nat
  turn : Nat
  depth : Nat
  action_iter : Option ActionIterator
  is_maximizing : Bool
  value : Value
  best_child : Option Nat
  action : Option AppliedAction
  state : Conflict
deriving DecidableEq

/-- `Node::new_root`. -/
def Node.new_root (conflict : Conflict) (max_depth : Nat) : Node :=
  { id := 0, parent_id := none, depth := max_depth, turn := 0, is_maximizing := true,
    value := Value.new (TerminalState.Heuristic Xq.ninf), best_child := none,
    action := none, state := conflict, action_iter := none }

/-- `Node::new_branch_from`: flip the player, advance turn and depth, keep
the parent's window, seed the value with the worst score for the child. -/
def Node.new_branch_from (id : Nat) (parent : Node) (action : AppliedAction)
    (state : Conflict) : Node :=
  let is_maximizing := !parent.is_maximizing
  { id, parent_id := some parent.id, is_maximizing,
    value := if is_maximizing then
        parent.value.with_value (TerminalState.Heuristic Xq.ninf)
      else
        parent.value.with_value (TerminalState.Heuristic Xq.pinf),
    best_child := none, depth := parent.depth + 1, turn := parent.turn + 1,
    action := some action, action_iter := none, state }

/-- `solver.rs::ExpansionResult`. -/
inductive ExpansionResult where
  | Expanded (parent : Node) (child : Node)
  | Exhausted (node : Node)
deriving DecidableEq

/-- `Solver::minimax_expand`: pick the acting side, stop on a retreated
party, lazily attach the move generator, pull one move and branch on it. -/
def minimax_expand (node : Node) (next_child_id : Nat) : ExpansionResult :=
  let current := if node.is_maximizing then node.state.initiator else node.state.opponent
  let opponent := if node.is_maximizing then node.state.opponent else node.state.initiator
  if current.has_retreated then ExpansionResult.Exhausted node
  else
    let node := if node.action_iter.isNone then
        { node with action_iter := some (ActionIterator.new current opponent) }
      else node
    let source_party_id := current.id
    match node.action_iter with
    | none => ExpansionResult.Exhausted node
    | some it =>
      match it.next with
      | (none, it') => ExpansionResult.Exhausted { node with action_iter := some it' }
      | (some action, it') =>
        let node := { node with action_iter := some it' }
        match action with
        | .Flee =>
          let current := current.retreat
          let state := if node.is_maximizing then Conflict.mk current opponent
            else Conflict.mk opponent current
          let child_node := Node.new_branch_from next_child_id node action state
          ExpansionResult.Expanded node child_node
        | .Targeted taction =>
          let source_id := taction.source.member_id
          let target_party_id := taction.target.party_id
          let target_id := taction.target.member_id
          let target := opponent.members.getD taction.target.member_id dummyMember
          let a := taction.action
          let applied := target.handle_action a
          if applied.1 then
            let opponent := opponent.replace_member applied.2
            let state := if node.is_maximizing then Conflict.mk current opponent
              else Conflict.mk opponent current
            let action := AppliedAction.Targeted
              ⟨a, ⟨source_party_id, source_id⟩, ⟨target_party_id, target_id⟩⟩
            let child_node := Node.new_branch_from next_child_id node action state
            ExpansionResult.Expanded node child_node
          else ExpansionResult.Exhausted node

/-- `Solver::propagate_to_parent`: fold the child's resolved value into the
parent's bound triplet, recording the best child and tightening the window
unless the parent is already past a cutoff. -/
def propagate_to_parent (nodes : List Node) (child_node : Node) : List Node × Cutoff :=
  match child_node.parent_id with
  | none => (nodes, Cutoff.None)
  | some id =>
    match nodes[id]? with
    | none => (nodes, Cutoff.None)
    | some parent_node =>
      let child_value := child_node.value
      if parent_node.is_maximizing then
        let parent_node :=
          if Xq.blt parent_node.value.value.value child_value.value.value then
            { parent_node with
              value := { parent_node.value with value := child_value.value },
              best_child := some child_node.id }
          else parent_node
        if parent_node.value.is_beta_cutoff then (nodes.set id parent_node, Cutoff.Beta)
        else
          let parent_node := { parent_node with
            value := { parent_node.value with
              alpha := Xq.max parent_node.value.alpha child_value.value.value } }
          (nodes.set id parent_node, Cutoff.None)
      else
        let parent_node :=
          if Xq.blt child_value.value.value parent_node.value.value.value then
            { parent_node with
              value := { parent_node.value with value := child_value.value },
              best_child := some child_node.id }
          else parent_node
        if parent_node.value.is_alpha_cutoff then (nodes.set id parent_node, Cutoff.Alpha)
        else
          let parent_node := { parent_node with
            value := { parent_node.value with
              beta := Xq.min parent_node.value.beta child_value.value.value } }
          (nodes.set id parent_node, Cutoff.None)

/-- Label for the pre-expansion check chain at the top of the dfs loop of
`Solver::minimax` (the source's `continue_expansion` computation). -/
inductive CheckResult where
  | betaCutoff
  | alphaCutoff
  | earlyDefeat
  | depthLimit
  | continueExpansion
deriving DecidableEq

/-- The pre-expansion check chain, in source order. The `pruning` flag is
the claim's device for the pruning-disabled full traversal: with `pruning`
set this is exactly the source chain; without it only the depth check
remains. -/
def checkPhase (pruning : Bool) (max_depth : Nat) (node : Node) : CheckResult :=
  if pruning && node.is_maximizing && node.value.is_beta_cutoff then CheckResult.betaCutoff
  else if pruning && !node.is_maximizing && node.value.is_alpha_cutoff then
    CheckResult.alphaCutoff
  else if pruning && !node.is_maximizing && node.value.value.is_negative then
    CheckResult.earlyDefeat
  else if node.depth = max_depth then CheckResult.depthLimit
  else CheckResult.continueExpansion

/-- The mutable state of one `Solver::minimax` run: the node arena, the dfs
work stack (head is the top) and the run statistics. -/
structure SearchState where
  nodes : List Node
  queue : List Nat
  depth_limited : Bool
  evaluations : Nat
  pruning_cuts : Nat
  max_visited_depth : Nat
deriving DecidableEq

/-- One iteration of the `'dfs` loop of `Solver::minimax`: pop a node,
run the pre-expansion checks, then cut off, evaluate at the horizon, or
expand/exhaust via the move generator and propagate to the parent. -/
def step (pruning : Bool) (max_depth : Nat) (st : SearchState) : SearchState :=
  match st.queue with
  | [] => st
  | id :: rest =>
    match st.nodes[id]? with
    | none => { st with queue := rest }
    | some node0 =>
      let st := { st with
        queue := rest
        evaluations := st.evaluations + 1
        max_visited_depth := Nat.max st.max_visited_depth node0.depth }
      match checkPhase pruning max_depth node0 with
      | CheckResult.betaCutoff =>
        { st with
          nodes := (propagate_to_parent st.nodes node0).1
          pruning_cuts := st.pruning_cuts + 1 }
      | CheckResult.alphaCutoff =>
        { st with
          nodes := (propagate_to_parent st.nodes node0).1
          pruning_cuts := st.pruning_cuts + 1 }
      | CheckResult.earlyDefeat =>
        { st with
          nodes := (propagate_to_parent st.nodes node0).1
          pruning_cuts := st.pruning_cuts + 1 }
      | CheckResult.depthLimit =>
        let node := { node0 with
          value := { node0.value with value := get_utility node0.state } }
        let nodes := st.nodes.set id node
        { st with nodes := (propagate_to_parent nodes node).1, depth_limited := true }
      | CheckResult.continueExpansion =>
        match minimax_expand node0 st.nodes.length with
        | ExpansionResult.Exhausted node =>
          let value := if node.value.value.isFinite then node.value.value
            else get_utility node.state
          let node := { node with value := { node.value with value := value } }
          let nodes := st.nodes.set id { node0 with value := node.value }
          let nodes := (propagate_to_parent nodes node).1
          { st with nodes := nodes.set node.id node }
        | ExpansionResult.Expanded parent child =>
          { st with
            queue := child.id :: parent.id :: rest
            nodes := (st.nodes ++ [child]).set parent.id parent }

/-- The `'dfs` while-loop of `Solver::minimax`, fuelled. -/
def runLoop (pruning : Bool) (max_depth : Nat) : Nat → SearchState → SearchState
  | 0, st => st
  | fuel + 1, st =>
    match st.queue with
    | [] => st
    | _ => runLoop pruning max_depth fuel (step pruning max_depth st)

/-- The search state `Solver::minimax` starts from. -/
def initState (conflict : Conflict) : SearchState :=
  { nodes := [Node.new_root conflict 0], queue := [0], depth_limited := false,
    evaluations := 0, pruning_cuts := 0, max_visited_depth := 0 }

/-- `solver.rs::OutcomeType`. -/
inductive OutcomeType where
  | Win (v : Xq)
  | Lose (v : Xq)
  | Remain (v : Xq)
  | Retreat (v : Xq)
  | Unknown (v : Xq)
deriving DecidableEq

/-- `solver.rs::Event` (one timeline entry). -/
structure Event where
  turn : Nat
  is_initiator_turn : Bool
  action : AppliedAction
  depth : Nat
  state : Conflict
deriving DecidableEq

/-- `solver.rs::Outcome` without the wall-clock `search_duration` (real
time is outside the embedding). -/
structure OutcomeR where
  outcome : OutcomeType
  timeline : List Event
  evaluations : Nat
  cuts : Nat
  max_visited_depth : Nat
  depth_limited : Bool
deriving DecidableEq

/-- The `best_child` walk of `Solver::backtrack`; the fuel bounds the walk
by the arena size, and the source's `expect` panics are modelled by ending
the walk. -/
def timelineFrom (nodes : List Node) : Nat → Option Nat → List Event
  | 0, _ => []
  | _, none => []
  | fuel + 1, some id =>
    match nodes[id]? with
    | none => []
    | some n =>
      match n.action with
      | none => []
      | some a =>
        ⟨n.turn, n.is_maximizing, a, n.depth, n.state⟩ :: timelineFrom nodes fuel n.best_child

/-- `Solver::backtrack`: read the root's classification and collect the
principal variation. -/
def backtrack (st : SearchState) : OutcomeR :=
  let rootValue := match st.nodes[0]? with
    | some r => r.value.value
    | none => TerminalState.Heuristic Xq.ninf
  let outcome := match rootValue with
    | TerminalState.Win s => OutcomeType.Win s
    | TerminalState.Defeat s => OutcomeType.Lose s
    | TerminalState.Remain s => OutcomeType.Remain s
    | TerminalState.Retreat s => OutcomeType.Retreat s
    | TerminalState.Heuristic s => OutcomeType.Unknown s
    | TerminalState.OpenUnexplored s => OutcomeType.Unknown s
  let timeline := match st.nodes[0]? with
    | none => []
    | some r => timelineFrom st.nodes st.nodes.length r.best_child
  { outcome, timeline, evaluations := st.evaluations, cuts := st.pruning_cuts,
    max_visited_depth := st.max_visited_depth, depth_limited := st.depth_limited }

/-- `Solver::minimax`, fuelled; `pruning` selects between the source's
pruned search and the claim's pruning-disabled full traversal. -/
def minimaxFuel (pruning : Bool) (conflict : Conflict) (max_depth : Nat) (fuel : Nat) :
    OutcomeR :=
  backtrack (runLoop pruning max_depth fuel (initState conflict))

/-- `solver.rs::SolverStrategy`. -/
inductive SolverStrategy where
  | DepthLimited (max_depth : Nat)
  | IterativeDeepening (max_depth : Nat)
deriving DecidableEq

/-- The `should_stop` computation of the iterative-deepening loop. -/
def shouldStop (o : OutcomeR) : Bool :=
  match o.outcome with
  | OutcomeType.Win _ => true
  | OutcomeType.Lose _ => false
  | OutcomeType.Remain _ => false
  | OutcomeType.Retreat _ => false
  | OutcomeType.Unknown _ => false

/-- The iterative-deepening `loop` of `Solver::engage`, structurally
recursive on a countdown that the caller sizes to the depth ceiling. -/
def idLoop (conflict : Conflict) (max_depth fuel : Nat) : Nat → Nat → OutcomeR
  | 0, depth => minimaxFuel true conflict depth fuel
  | counter + 1, depth =>
    let outcome := minimaxFuel true conflict depth fuel
    if !outcome.depth_limited || shouldStop outcome then outcome
    else if max_depth < depth + 1 then outcome
    else idLoop conflict max_depth fuel counter (depth + 1)

/-- `Solver::engage`, fuelled. -/
def engage (conflict : Conflict) (strategy : SolverStrategy) (fuel : Nat) : OutcomeR :=
  match strategy with
  | SolverStrategy.DepthLimited max_depth =>
    minimaxFuel true conflict (Nat.max max_depth 1) fuel
  | SolverStrategy.IterativeDeepening max_depth =>
    let max_depth := Nat.max max_depth 1
    idLoop conflict max_depth fuel max_depth 1

/-- The utility evaluator as the specification words it: five conditions
checked in the spec's order, with the spec's formulas. Written from the
spec for the refinement comparison with `get_utility`. -/
def claim_utility (c : Conflict) : TerminalState :=
  if c.initiator.is_defeated then
    TerminalState.Defeat (Xq.fin (-((c.initiator.members.map (fun m => m.damage_taken)).sum)))
  else if c.initiator.has_retreated then
    TerminalState.Retreat
      (Xq.fin (-((c.initiator.members.map (fun m => m.damage_taken)).sum) * (1 / 10)))
  else if c.opponent.is_defeated then
    TerminalState.Win (Xq.fin ((c.initiator.members.map (fun m => max m.health 0)).sum))
  else if c.opponent.has_retreated then
    TerminalState.Remain
      (Xq.fin ((c.initiator.members.map (fun m => max m.health 0)).sum * (1 / 10)))
  else
    TerminalState.Heuristic
      (Xq.fin ((c.initiator.members.map (fun m => max m.health 0)).sum * (1 / 10)))

/-- The single attack a member's action set currently contains: a simple
attack with the equipped weapon. -/
def memberAttack (m : PartyMember) : Action :=
  Action.SimpleAttack ⟨some m.weapon, m.weapon.damage⟩

/-- The target sweep the generator still owes for one member, starting at
opponent index `k`: the remaining applicable targets in list order. -/
def sweepFrom (cur opp : Party) (m : PartyMember) (k : Nat) : List AppliedAction :=
  ((opp.members.drop k).filter (fun tm => tm.is_applicable (memberAttack m))).map
    (fun tm => AppliedAction.Targeted ⟨memberAttack m, ⟨cur.id, m.id⟩, ⟨opp.id, tm.id⟩⟩)

/-- The canonical nested enumeration from acting member `i` on: eligible
members in list order, each member's single attack, applicable targets in
list order. -/
def canonicalFrom (cur opp : Party) (i : Nat) : List AppliedAction :=
  ((cur.members.drop i).filter (fun m => m.can_act)).flatMap (fun m =>
    (opp.members.filter (fun tm => tm.is_applicable (memberAttack m))).map
      (fun tm => AppliedAction.Targeted ⟨memberAttack m, ⟨cur.id, m.id⟩, ⟨opp.id, tm.id⟩⟩))

/-- The canonical nested enumeration of the whole generator. -/
def canonicalMoves (cur opp : Party) : List AppliedAction := canonicalFrom cur opp 0

/-- A fresh traversal state of the generator positioned at member `i`. -/
def freshState (cur opp : Party) (i : Nat) : ActionIterator :=
  { current := cur, opponent := opp, current_index := i, range_start := 0,
    range_end := cur.members.length, iter := none }

/-- A mid-sweep traversal state: member `i`'s action already pulled, next
target index `k`. -/
def midState (cur opp : Party) (i : Nat) (m : PartyMember) (k : Nat) : ActionIterator :=
  { current := cur, opponent := opp, current_index := i, range_start := 0,
    range_end := cur.members.length,
    iter := some { enemy_index := k, enemies_start := 0,
                   enemies_end := opp.members.length,
                   iter := some ⟨m, 1⟩, action := some (memberAttack m) } }

/-- The stop test of the iterative-deepening loop: not depth limited, or a
decisive win. -/
def stopB (c : Conflict) (fuel e : Nat) : Bool :=
  let o := minimaxFuel true c e fuel
  !o.depth_limited || shouldStop o

/-- Shape of the root node that the depth-one runs maintain. -/
def RootOk (r : Node) : Prop :=
  r.is_maximizing = true ∧ r.value.beta = Xq.pinf ∧ r.depth = 0 ∧
  r.parent_id = none ∧ r.id = 0

/-- Shape of a freshly created depth-one child awaiting its single visit. -/
def ChildOk (c : Nat) (ch : Node) : Prop :=
  ch.is_maximizing = false ∧ ch.value.value = TerminalState.Heuristic Xq.pinf ∧
  ch.depth = 1 ∧ ch.parent_id = some 0 ∧ ch.id = c ∧ c ≠ 0

/-- Invariant of every state reachable in a depth-one search: an empty
stack, the root alone, or the root below one fresh child. -/
def InvD1 (st : SearchState) : Prop :=
  st.queue = [] ∨
  (∃ r, st.queue = [0] ∧ st.nodes[0]? = some r ∧ RootOk r) ∨
  (∃ c r ch, st.queue = [c, 0] ∧ st.nodes[0]? = some r ∧ RootOk r ∧
    st.nodes[c]? = some ch ∧ ChildOk c ch)

/-! Concrete inputs used by counterexamples and witnesses. -/

/-- C1 counterexample, initiating side: one member too weak to kill. -/
def heroC1 : Party := ⟨0, [⟨0, 10, 0, Weapon.Fists 1⟩], false⟩

/-- C1 counterexample, opposing side: a mild threat enumerated before a
lethal one. -/
def villC1 : Party := ⟨1, [⟨0, 10, 0, Weapon.Fists 15⟩, ⟨1, 10, 0, Weapon.Fists 100⟩], false⟩

/-- C1 counterexample conflict. -/
def cexC1 : Conflict := ⟨heroC1, villC1⟩

/-- C2 counterexample: an initiator with no members. -/
def cexC2 : Conflict := ⟨⟨0, [], false⟩, ⟨1, [⟨0, 10, 0, Weapon.Fists 1⟩], false⟩⟩

/-- C2 witness conflict resolving to a win. -/
def cwinC2 : Conflict := ⟨⟨0, [⟨0, 5, 2, Weapon.Fists 1⟩], false⟩,
  ⟨1, [⟨0, 0, 7, Weapon.Fists 1⟩], false⟩⟩

/-- C2 witness conflict resolving to a defeat. -/
def cdefC2 : Conflict := ⟨⟨0, [⟨0, 0, 7, Weapon.Fists 1⟩], false⟩,
  ⟨1, [⟨0, 5, 0, Weapon.Fists 1⟩], false⟩⟩

/-- C4 failing input, initiating side of the source's opponent-flees test. -/
def heroFlee : Party := ⟨0, [⟨0, 20, 0, Weapon.Fists 10⟩], false⟩

/-- C4 failing input, opposing side of the source's opponent-flees test. -/
def villFlee : Party := ⟨1, [⟨0, 15, 0, Weapon.Stick 5⟩, ⟨1, 10, 0, Weapon.Fists 20⟩], false⟩

/-- C5 counterexample, acting party. -/
def curC5 : Party := ⟨0, [⟨0, 10, 0, Weapon.Fists 5⟩], false⟩

/-- C5 counterexample, target party with a dead first member. -/
def oppC5 : Party := ⟨1, [⟨0, 0, 12, Weapon.Fists 3⟩, ⟨1, 7, 0, Weapon.Stick 2⟩], false⟩

/-- C6 counterexample, acting party. -/
def curC6 : Party := ⟨0, [⟨0, 9, 0, Weapon.Stick 4⟩], false⟩

/-- C6 counterexample, target party with a dead first member. -/
def oppC6 : Party := ⟨1, [⟨0, 0, 6, Weapon.Stick 1⟩, ⟨1, 8, 0, Weapon.Fists 2⟩], false⟩

/-- C6 witness parties (all targets alive). -/
def curW6 : Party := ⟨0, [⟨0, 12, 0, Weapon.Stick 3⟩, ⟨1, 0, 5, Weapon.Fists 2⟩], false⟩

/-- C6 witness target party. -/
def oppW6 : Party := ⟨1, [⟨0, 4, 0, Weapon.Fists 1⟩, ⟨1, 6, 0, Weapon.Stick 2⟩], false⟩

/-- C3 witness node: a minimizing node holding a finite negative value, so
the early-defeat cutoff fires on the next pop. -/
def nC3 : Node :=
  { id := 0, parent_id := none, turn := 1, depth := 1, action_iter := none,
    is_maximizing := false,
    value := ⟨TerminalState.Defeat (Xq.fin (-5)), Xq.ninf, Xq.pinf⟩,
    best_child := none, action := none, state := cexC1 }

/-- C3 witness search state. -/
def stC3 : SearchState :=
  { nodes := [nC3], queue := [0], depth_limited := false, evaluations := 0,
    pruning_cuts := 0, max_visited_depth := 0 }

/-- C7 witness: the root expansion of the C1 conflict. -/
def expC7 : ExpansionResult := minimax_expand (Node.new_root cexC1 0) 1

/-- The parent returned by the C7 witness expansion. -/
def pC7 : Node :=
  match expC7 with
  | ExpansionResult.Expanded p _ => p
  | ExpansionResult.Exhausted n => n

/-- The child returned by the C7 witness expansion. -/
def cC7 : Node :=
  match expC7 with
  | ExpansionResult.Expanded _ c => c
  | ExpansionResult.Exhausted n => n

/-- C5 witness acting party. -/
def curMis5 : Party := ⟨0, [⟨0, 10, 0, Weapon.Fists 5⟩], false⟩

/-- C5 witness opponent whose member ids disagree with their indices: the
member with id 1 sits at index 0 and is alive, the member with id 0 sits at
index 1 and is dead. -/
def oppMis5 : Party := ⟨1, [⟨1, 9, 0, Weapon.Stick 2⟩, ⟨0, 0, 11, Weapon.Fists 1⟩], false⟩

/-- C5 witness iterator, freshly attached. -/
def itC5 : ActionIterator := ActionIterator.new curMis5 oppMis5

/-- C5 witness node for the failed-application branch: the emitted move's
target id is 1, but the solver indexes members by id, finds the dead member
stored at index 1, and the effect does not take hold. -/
def nodeC5 : Node :=
  { id := 0, parent_id := none, turn := 0, depth := 0, action_iter := some itC5,
    is_maximizing := true,
    value := Value.new (TerminalState.Heuristic Xq.ninf),
    best_child := none, action := none, state := ⟨curMis5, oppMis5⟩ }

/-- C5 witness: the first move the generator pulls on that pair. -/
def taC5 : TargetedAction :=
  ⟨Action.SimpleAttack ⟨some (Weapon.Fists 5), 5⟩, ⟨0, 0⟩, ⟨1, 1⟩⟩

/-- C5 witness: the generator position after that pull. -/
def itC5adv : ActionIterator := (ActionIterator.next itC5).2

/-! Helper lemmas. -/

/-- Summing the negated damages equals negating the damage sum. -/
theorem sum_map_neg_damage (l : List PartyMember) :
    (l.map (fun m => -m.damage_taken)).sum = -((l.map (fun m => m.damage_taken)).sum) := by
  induction l with
  | nil => simp
  | cons hd tl ih => simp [ih]; ring

/-- A party that is not defeated has a member with positive health. -/
theorem not_defeated_pos_health (p : Party) (h : p.is_defeated = false) :
    ∃ m ∈ p.members, 0 < m.health := by
  unfold Party.is_defeated at h
  have h' : ¬ ∀ m ∈ p.members, PartyMember.is_dead m = true := by
    intro hall
    rw [List.all_eq_true.mpr hall] at h
    cases h
  push_neg at h'
  obtain ⟨m, hm, hd⟩ := h'
  refine ⟨m, hm, ?_⟩
  simp only [PartyMember.is_dead, ne_eq, decide_eq_true_eq] at hd
  exact lt_of_not_le hd

/-- The health-sum utility is positive as soon as one member is alive. -/
theorem health_sum_pos (l : List PartyMember) (m : PartyMember) (hm : m ∈ l)
    (hpos : 0 < m.health) : 0 < (l.map (fun x => max x.health 0)).sum := by
  have hle : max m.health 0 ≤ (l.map (fun x => max x.health 0)).sum := by
    apply List.single_le_sum
    · intro x hx
      simp only [List.mem_map] at hx
      obtain ⟨y, _, rfl⟩ := hx
      exact le_max_right _ _
    · exact List.mem_map_of_mem _ hm
  calc (0 : ℚ) < m.health := hpos
    _ ≤ max m.health 0 := le_max_left _ _
    _ ≤ _ := hle

/-- Damage sums are nonnegative when each member's tally is. -/
theorem damage_sum_nonneg (l : List PartyMember)
    (h : ∀ m ∈ l, 0 ≤ m.damage_taken) :
    0 ≤ (l.map (fun m => m.damage_taken)).sum := by
  apply List.sum_nonneg
  intro x hx
  simp only [List.mem_map] at hx
  obtain ⟨y, hy, rfl⟩ := hx
  exact h y hy

/-- C2 (counterexample): the claim asserts Defeat scores are always
strictly negative, but a conflict whose initiator has no members is
classified `Defeat` with score `0` (the empty damage sum), and `0` is not
negative. -/
theorem C2_counterexample :
    get_utility cexC2 = TerminalState.Defeat (Xq.fin 0) ∧
    (get_utility cexC2).is_negative = false := by
  constructor <;> rfl

/-- C2 (amended): the evaluator resolves exactly in the claimed order with
the claimed formulas; Defeat scores are nonpositive (zero exactly when the
initiator's cumulative damage sums to zero, e.g. with no members) rather
than always strictly negative, and Win scores are always strictly
positive. -/
theorem C2_amended (c : Conflict) :
    get_utility c = claim_utility c ∧
    ((∀ m ∈ c.initiator.members, 0 ≤ m.damage_taken) →
      ∀ q, get_utility c = TerminalState.Defeat (Xq.fin q) → q ≤ 0) ∧
    (∀ q, get_utility c = TerminalState.Win (Xq.fin q) → 0 < q) := by
  have hcu : get_utility c = claim_utility c := by
    cases hd : c.initiator.is_defeated <;> cases hr : c.initiator.has_retreated <;>
      cases hod : c.opponent.is_defeated <;> cases hor : c.opponent.has_retreated <;>
      simp [get_utility, claim_utility, hd, hr, hod, hor, sum_map_neg_damage]
  refine ⟨hcu, ?_, ?_⟩
  · intro hdt q hq
    rw [hcu] at hq
    unfold claim_utility at hq
    cases hd : c.initiator.is_defeated with
    | true =>
      simp only [hd, if_true] at hq
      obtain rfl : -((c.initiator.members.map (fun m => m.damage_taken)).sum) = q := by
        simpa using hq
      exact neg_nonpos.mpr (damage_sum_nonneg _ hdt)
    | false =>
      simp only [hd, Bool.false_eq_true, if_false] at hq
      split at hq <;> try simp at hq
      split at hq <;> try simp at hq
      split at hq <;> simp at hq
  · intro q hq
    rw [hcu] at hq
    unfold claim_utility at hq
    cases hd : c.initiator.is_defeated with
    | true => simp [hd] at hq
    | false =>
      simp only [hd, Bool.false_eq_true, if_false] at hq
      cases hr : c.initiator.has_retreated with
      | true => simp [hr] at hq
      | false =>
        simp only [hr, Bool.false_eq_true, if_false] at hq
        cases hod : c.opponent.is_defeated with
        | true =>
          simp only [hod, if_true] at hq
          obtain rfl : (c.initiator.members.map (fun m => max m.health 0)).sum = q := by
            simpa using hq
          obtain ⟨m, hm, hpos⟩ := not_defeated_pos_health c.initiator hd
          exact health_sum_pos _ m hm hpos
        | false =>
          simp only [hod, Bool.false_eq_true, if_false] at hq
          split at hq <;> simp at hq

/-- C2 witness: the amended claim applied to a concrete winning conflict
and a concrete defeat conflict. -/
theorem C2_amended_witness :
    get_utility cwinC2 = claim_utility cwinC2 ∧ ((-7 : ℚ) ≤ 0) ∧ ((0 : ℚ) < 5) :=
  ⟨(C2_amended cwinC2).1,
   (C2_amended cdefC2).2.1 (by with_unfolding_all decide) (-7) (by with_unfolding_all decide),
   (C2_amended cwinC2).2.2 5 (by with_unfolding_all decide)⟩

/-- C9: an attack of damage `d` leaves a dead combatant (health at or below
zero) untouched and reports failure; on a living combatant it reports
success, clamps health at zero, and adds the raw damage to the cumulative
tally. -/
theorem C9_handle_simple_attack (m : PartyMember) (attack : SimpleAttackAction)
    (_hd : 0 ≤ attack.damage) :
    (m.health ≤ 0 → m.handle_simple_attack attack = (false, m)) ∧
    (0 < m.health →
      m.handle_simple_attack attack =
        (true,
          { m with
            health := max (m.health - attack.damage) 0
            damage_taken := m.damage_taken + attack.damage })) := by
  constructor
  · intro h
    simp [PartyMember.handle_simple_attack, PartyMember.is_dead, h]
  · intro h
    simp [PartyMember.handle_simple_attack, PartyMember.is_dead, not_le.mpr h]

/-- C9 witness: the theorem applied to a dead and a living combatant, with
overkill damage on the living one. -/
theorem C9_handle_simple_attack_witness :
    PartyMember.handle_simple_attack ⟨0, 0, 4, Weapon.Fists 3⟩ ⟨none, 100⟩ =
      (false, ⟨0, 0, 4, Weapon.Fists 3⟩) ∧
    PartyMember.handle_simple_attack ⟨0, 10, 0, Weapon.Fists 3⟩ ⟨none, 100⟩ =
      (true, ⟨0, max ((10 : ℚ) - 100) 0, 0 + 100, Weapon.Fists 3⟩) :=
  ⟨(C9_handle_simple_attack ⟨0, 0, 4, Weapon.Fists 3⟩ ⟨none, 100⟩ (by with_unfolding_all decide)).1 (by with_unfolding_all decide),
   (C9_handle_simple_attack ⟨0, 10, 0, Weapon.Fists 3⟩ ⟨none, 100⟩ (by with_unfolding_all decide)).2 (by with_unfolding_all decide)⟩

/-- C10: a party with no members counts as defeated, so a conflict whose
initiator has no members is classified `Defeat` with score `0` (the empty
damage sum), not a strictly negative score. -/
theorem C10_empty_party_defeat :
    (∀ (pid : Nat) (r : Bool), Party.is_defeated ⟨pid, [], r⟩ = true) ∧
    (∀ (pid : Nat) (r : Bool) (opp : Party),
      get_utility ⟨⟨pid, [], r⟩, opp⟩ = TerminalState.Defeat (Xq.fin 0)) := by
  exact ⟨fun _ _ => rfl, fun _ _ _ => rfl⟩

/-- C4: on the source's own opponent-flees test setup — an acting party the
tests mark as permitted to withdraw and not yet withdrawn — the generator's
emission contains no `Flee` at all, and its first move is a targeted
attack, contradicting the claim (and the solver's `Flee` branch and the
retreat outcomes the source's tests assert). -/
theorem C4_no_flee_emitted :
    emitList (ActionIterator.new heroFlee villFlee) =
      [AppliedAction.Targeted ⟨Action.SimpleAttack ⟨some (Weapon.Fists 10), 10⟩, ⟨0, 0⟩, ⟨1, 0⟩⟩,
       AppliedAction.Targeted ⟨Action.SimpleAttack ⟨some (Weapon.Fists 10), 10⟩, ⟨0, 0⟩, ⟨1, 1⟩⟩] ∧
    AppliedAction.Flee ∉ emitList (ActionIterator.new heroFlee villFlee) := by
  constructor
  · decide
  · decide

/-- C5 (counterexample): the generator does filter by target eligibility —
with the opponent's first member dead the emission contains only the move
against the living member and no move whose target is the dead member. -/
theorem C5_counterexample :
    (oppC5.members.getD 0 dummyMember).is_dead = true ∧
    emitList (ActionIterator.new curC5 oppC5) =
      [AppliedAction.Targeted ⟨Action.SimpleAttack ⟨some (Weapon.Fists 5), 5⟩, ⟨0, 0⟩, ⟨1, 1⟩⟩] := by
  constructor
  · decide
  · decide

/-- C6 (counterexample): the emitted sequence does not range over all
opponent members — the dead first member of a two-member opponent yields no
move, so one eligible attacker with one action emits one move, not two. -/
theorem C6_counterexample :
    (oppC6.members.getD 0 dummyMember).is_dead = true ∧
    oppC6.members.length = 2 ∧
    emitList (ActionIterator.new curC6 oppC6) =
      [AppliedAction.Targeted ⟨Action.SimpleAttack ⟨some (Weapon.Stick 4), 4⟩, ⟨0, 0⟩, ⟨1, 1⟩⟩] := by
  refine ⟨by with_unfolding_all decide, by with_unfolding_all decide, by with_unfolding_all decide⟩

/-- C1 (counterexample): at depth 2 on a concrete conflict the pruned
search (early-defeat cutoff included) reports `Lose(-15)` while the
pruning-disabled full traversal of the same tree reports `Lose(-100)`; both
runs drain their work stacks, so the fuel is not the cause. -/
theorem C1_counterexample :
    (minimaxFuel true cexC1 2 64).outcome = OutcomeType.Lose (Xq.fin (-15)) ∧
    (minimaxFuel false cexC1 2 64).outcome = OutcomeType.Lose (Xq.fin (-100)) ∧
    (runLoop true 2 64 (initState cexC1)).queue = [] ∧
    (runLoop false 2 64 (initState cexC1)).queue = [] ∧
    (minimaxFuel true cexC1 2 64).outcome ≠ (minimaxFuel false cexC1 2 64).outcome := by
  refine ⟨by with_unfolding_all decide, by with_unfolding_all decide, by with_unfolding_all decide, by with_unfolding_all decide, by with_unfolding_all decide⟩

/-- A triplet whose beta bound is infinite never reports a beta cutoff. -/
theorem beta_pinf_no_cutoff (v : Value) (h : v.beta = Xq.pinf) :
    v.is_beta_cutoff = false := by
  unfold Value.is_beta_cutoff
  rw [h]
  cases hq : v.value.value <;>
    simp [TerminalState.isFinite, hq, Xq.isFinite, Xq.ble]

/-- Parent propagation touches no node's move generator and appends no
node: lengths and stored iterators are preserved. -/
theorem propagate_preserve (nodes : List Node) (ch : Node) :
    (propagate_to_parent nodes ch).1.length = nodes.length ∧
    ∀ j : Nat, ((propagate_to_parent nodes ch).1[j]?).map (fun nd : Node => nd.action_iter) =
      (nodes[j]?).map (fun nd : Node => nd.action_iter) := by
  unfold propagate_to_parent
  cases hp : ch.parent_id with
  | none => exact ⟨rfl, fun _ => rfl⟩
  | some pid =>
    cases hg : nodes[pid]? with
    | none => simp [hg]
    | some par =>
      simp only [hg]
      have hset : ∀ par' : Node, par'.action_iter = par.action_iter →
          (nodes.set pid par').length = nodes.length ∧
          ∀ j : Nat, ((nodes.set pid par')[j]?).map (fun nd : Node => nd.action_iter) =
            (nodes[j]?).map (fun nd : Node => nd.action_iter) := by
        intro par' hit
        refine ⟨List.length_set nodes pid par', fun j => ?_⟩
        rcases eq_or_ne pid j with rfl | hne
        · rw [List.getElem?_set_self', hg]
          simp [hit]
        · rw [List.getElem?_set_ne hne]
      repeat' split
      all_goals exact hset _ rfl

/-- Propagating any child value into a root of shape `RootOk` keeps that
shape: a maximizing parent with infinite beta only ever refreshes its
value, best child and alpha bound. -/
theorem propagate_to_root (nodes : List Node) (ch r : Node)
    (hp : ch.parent_id = some 0) (hg : nodes[0]? = some r) (hr : RootOk r) :
    ∃ r', (propagate_to_parent nodes ch).1 = nodes.set 0 r' ∧ RootOk r' := by
  obtain ⟨hmax, hbeta, hdep, hpar, hid⟩ := hr
  unfold propagate_to_parent
  simp only [hp, hg]
  rw [if_pos hmax]
  by_cases hblt : Xq.blt r.value.value.value ch.value.value.value = true
  · rw [if_pos hblt]
    have hcut : ({ r with
        value := { r.value with value := ch.value.value },
        best_child := some ch.id } : Node).value.is_beta_cutoff = false :=
      beta_pinf_no_cutoff _ hbeta
    rw [if_neg (by simp [hcut])]
    refine ⟨_, rfl, ?_, ?_, ?_, ?_, ?_⟩ <;>
      first | exact hmax | exact hbeta | exact hdep | exact hpar | exact hid
  · rw [if_neg hblt]
    have hcut : r.value.is_beta_cutoff = false := beta_pinf_no_cutoff _ hbeta
    rw [if_neg (by simp [hcut])]
    refine ⟨_, rfl, ?_, ?_, ?_, ?_, ?_⟩ <;>
      first | exact hmax | exact hbeta | exact hdep | exact hpar | exact hid

/-- A successful expansion returns the original node with only its cursor
advanced, paired with a child built by `Node.new_branch_from`. -/
theorem minimax_expand_expanded (n : Node) (k : Nat) (p c : Node)
    (h : minimax_expand n k = ExpansionResult.Expanded p c) :
    p.id = n.id ∧ p.turn = n.turn ∧ p.depth = n.depth ∧
    p.is_maximizing = n.is_maximizing ∧ p.value = n.value ∧
    p.parent_id = n.parent_id ∧
    ∃ a s, c = Node.new_branch_from k p a s := by
  unfold minimax_expand at h
  simp only [] at h
  repeat' split at h
  all_goals simp only [ExpansionResult.Expanded.injEq, reduceCtorEq] at h
  all_goals obtain ⟨h1, h2⟩ := h
  all_goals subst h1
  all_goals subst h2
  all_goals exact ⟨rfl, rfl, rfl, rfl, rfl, rfl, _, _, rfl⟩

/-- C3: on every pop, the pre-expansion chain fires in exactly the order
beta cutoff, alpha cutoff, early-defeat cutoff, depth limit; whenever one
fires the step pops the node, propagates to the parent, and never consults
the move generator — no node is appended and no stored cursor changes. -/
theorem C3_check_priority (st : SearchState) (id : Nat) (rest : List Nat) (n : Node)
    (max_depth : Nat) (hq : st.queue = id :: rest) (hn : st.nodes[id]? = some n) :
    (checkPhase true max_depth n = CheckResult.betaCutoff ↔
      n.is_maximizing = true ∧ n.value.is_beta_cutoff = true) ∧
    (checkPhase true max_depth n = CheckResult.alphaCutoff ↔
      ¬(n.is_maximizing = true ∧ n.value.is_beta_cutoff = true) ∧
      (n.is_maximizing = false ∧ n.value.is_alpha_cutoff = true)) ∧
    (checkPhase true max_depth n = CheckResult.earlyDefeat ↔
      ¬(n.is_maximizing = true ∧ n.value.is_beta_cutoff = true) ∧
      ¬(n.is_maximizing = false ∧ n.value.is_alpha_cutoff = true) ∧
      (n.is_maximizing = false ∧ n.value.value.is_negative = true)) ∧
    (checkPhase true max_depth n = CheckResult.depthLimit ↔
      ¬(n.is_maximizing = true ∧ n.value.is_beta_cutoff = true) ∧
      ¬(n.is_maximizing = false ∧ n.value.is_alpha_cutoff = true) ∧
      ¬(n.is_maximizing = false ∧ n.value.value.is_negative = true) ∧
      n.depth = max_depth) ∧
    ((checkPhase true max_depth n = CheckResult.betaCutoff ∨
      checkPhase true max_depth n = CheckResult.alphaCutoff ∨
      checkPhase true max_depth n = CheckResult.earlyDefeat) →
      step true max_depth st =
        { st with
          queue := rest
          evaluations := st.evaluations + 1
          max_visited_depth := Nat.max st.max_visited_depth n.depth
          nodes := (propagate_to_parent st.nodes n).1
          pruning_cuts := st.pruning_cuts + 1 }) ∧
    (checkPhase true max_depth n = CheckResult.depthLimit →
      step true max_depth st =
        { st with
          queue := rest
          evaluations := st.evaluations + 1
          max_visited_depth := Nat.max st.max_visited_depth n.depth
          nodes := (propagate_to_parent
            (st.nodes.set id
              { n with value := { n.value with value := get_utility n.state } })
            { n with value := { n.value with value := get_utility n.state } }).1
          depth_limited := true }) ∧
    (checkPhase true max_depth n ≠ CheckResult.continueExpansion →
      (step true max_depth st).nodes.length = st.nodes.length ∧
      ∀ j : Nat,
        ((step true max_depth st).nodes[j]?).map (fun nd : Node => nd.action_iter) =
          (st.nodes[j]?).map (fun nd : Node => nd.action_iter)) := by
  have hstep : ∀ k : CheckResult, checkPhase true max_depth n = k →
      step true max_depth st =
        (match k with
        | CheckResult.betaCutoff =>
          { st with
            queue := rest
            evaluations := st.evaluations + 1
            max_visited_depth := Nat.max st.max_visited_depth n.depth
            nodes := (propagate_to_parent st.nodes n).1
            pruning_cuts := st.pruning_cuts + 1 }
        | CheckResult.alphaCutoff =>
          { st with
            queue := rest
            evaluations := st.evaluations + 1
            max_visited_depth := Nat.max st.max_visited_depth n.depth
            nodes := (propagate_to_parent st.nodes n).1
            pruning_cuts := st.pruning_cuts + 1 }
        | CheckResult.earlyDefeat =>
          { st with
            queue := rest
            evaluations := st.evaluations + 1
            max_visited_depth := Nat.max st.max_visited_depth n.depth
            nodes := (propagate_to_parent st.nodes n).1
            pruning_cuts := st.pruning_cuts + 1 }
        | CheckResult.depthLimit =>
          { st with
            queue := rest
            evaluations := st.evaluations + 1
            max_visited_depth := Nat.max st.max_visited_depth n.depth
            nodes := (propagate_to_parent
              (st.nodes.set id
                { n with value := { n.value with value := get_utility n.state } })
              { n with value := { n.value with value := get_utility n.state } }).1
            depth_limited := true }
        | CheckResult.continueExpansion => step true max_depth st) := by
    intro k hk
    cases k <;> simp only [step, hq, hn, hk]
  refine ⟨?_, ?_, ?_, ?_, ?_, ?_, ?_⟩
  · cases hm : n.is_maximizing <;> cases hb : n.value.is_beta_cutoff <;>
      cases ha : n.value.is_alpha_cutoff <;> cases hneg : n.value.value.is_negative <;>
      by_cases hdep : n.depth = max_depth <;>
      simp [checkPhase, hm, hb, ha, hneg, hdep]
  · cases hm : n.is_maximizing <;> cases hb : n.value.is_beta_cutoff <;>
      cases ha : n.value.is_alpha_cutoff <;> cases hneg : n.value.value.is_negative <;>
      by_cases hdep : n.depth = max_depth <;>
      simp [checkPhase, hm, hb, ha, hneg, hdep]
  · cases hm : n.is_maximizing <;> cases hb : n.value.is_beta_cutoff <;>
      cases ha : n.value.is_alpha_cutoff <;> cases hneg : n.value.value.is_negative <;>
      by_cases hdep : n.depth = max_depth <;>
      simp [checkPhase, hm, hb, ha, hneg, hdep]
  · cases hm : n.is_maximizing <;> cases hb : n.value.is_beta_cutoff <;>
      cases ha : n.value.is_alpha_cutoff <;> cases hneg : n.value.value.is_negative <;>
      by_cases hdep : n.depth = max_depth <;>
      simp [checkPhase, hm, hb, ha, hneg, hdep]
  · rintro (hk | hk | hk) <;> exact hstep _ hk
  · intro hk
    exact hstep _ hk
  · intro hk
    rcases hck : checkPhase true max_depth n with _ | _ | _ | _ | _
    case continueExpansion => exact absurd hck hk
    case betaCutoff =>
      rw [hstep _ hck]
      refine ⟨(propagate_preserve st.nodes n).1, fun j => (propagate_preserve st.nodes n).2 j⟩
    case alphaCutoff =>
      rw [hstep _ hck]
      refine ⟨(propagate_preserve st.nodes n).1, fun j => (propagate_preserve st.nodes n).2 j⟩
    case earlyDefeat =>
      rw [hstep _ hck]
      refine ⟨(propagate_preserve st.nodes n).1, fun j => (propagate_preserve st.nodes n).2 j⟩
    case depthLimit =>
      rw [hstep _ hck]
      have hpp := propagate_preserve
        (st.nodes.set id { n with value := { n.value with value := get_utility n.state } })
        { n with value := { n.value with value := get_utility n.state } }
      refine ⟨by rw [hpp.1]; exact List.length_set st.nodes id _, fun j => ?_⟩
      rw [hpp.2 j]
      rcases eq_or_ne id j with rfl | hne
      · rw [List.getElem?_set_self', hn]
        rfl
      · rw [List.getElem?_set_ne hne]

/-- C3 witness: a minimizing node with a finite negative value and infinite
bounds triggers the early-defeat cutoff, and the step only pops, counts the
cut and propagates. -/
theorem C3_check_priority_witness :
    step true 3 stC3 =
      { stC3 with
        queue := []
        evaluations := stC3.evaluations + 1
        max_visited_depth := Nat.max stC3.max_visited_depth nC3.depth
        nodes := (propagate_to_parent stC3.nodes nC3).1
        pruning_cuts := stC3.pruning_cuts + 1 } :=
  ((C3_check_priority stC3 0 [] nC3 3 rfl rfl).2.2.2.2.1)
    (Or.inr (Or.inr (by with_unfolding_all decide)))

/-- C7: every appended child flips the player, advances ply and depth by
one, inherits the parent's window, starts from the worst value for its
player, and is pushed above its (re-pushed) parent so it is popped first. -/
theorem C7_expansion (st : SearchState) (id : Nat) (rest : List Nat) (n parent child : Node)
    (max_depth : Nat) (hq : st.queue = id :: rest) (hn : st.nodes[id]? = some n)
    (hc : checkPhase true max_depth n = CheckResult.continueExpansion)
    (he : minimax_expand n st.nodes.length = ExpansionResult.Expanded parent child) :
    child.is_maximizing = !n.is_maximizing ∧
    child.turn = n.turn + 1 ∧
    child.depth = n.depth + 1 ∧
    child.value.alpha = n.value.alpha ∧
    child.value.beta = n.value.beta ∧
    child.value.value = (if child.is_maximizing then TerminalState.Heuristic Xq.ninf
      else TerminalState.Heuristic Xq.pinf) ∧
    child.parent_id = some n.id ∧
    child.id = st.nodes.length ∧
    child.best_child = none ∧
    parent.id = n.id ∧
    (step true max_depth st).queue = child.id :: n.id :: rest ∧
    (step true max_depth st).nodes = (st.nodes ++ [child]).set parent.id parent := by
  obtain ⟨hpid, hpturn, hpdepth, hpmax, hpval, hppar, a, s, hch⟩ :=
    minimax_expand_expanded n st.nodes.length parent child he
  have hstep : step true max_depth st =
      { st with
        queue := child.id :: parent.id :: rest
        evaluations := st.evaluations + 1
        max_visited_depth := Nat.max st.max_visited_depth n.depth
        nodes := (st.nodes ++ [child]).set parent.id parent } := by
    simp only [step, hq, hn, hc, he]
  subst hch
  refine ⟨?_, ?_, ?_, ?_, ?_, ?_, ?_, ?_, ?_, hpid, ?_, ?_⟩
  · simp [Node.new_branch_from, hpmax]
  · simp [Node.new_branch_from, hpturn]
  · simp [Node.new_branch_from, hpdepth]
  · cases hb : parent.is_maximizing <;>
      simp [Node.new_branch_from, Value.with_value, Value.new_with, hb, hpval]
  · cases hb : parent.is_maximizing <;>
      simp [Node.new_branch_from, Value.with_value, Value.new_with, hb, hpval]
  · cases hb : parent.is_maximizing <;>
      simp [Node.new_branch_from, Value.with_value, Value.new_with, hb]
  · simp [Node.new_branch_from, hpid]
  · simp [Node.new_branch_from]
  · simp [Node.new_branch_from]
  · rw [hstep, hpid]
  · rw [hstep]

/-- C7 witness: the first expansion of the depth-2 counterexample conflict. -/
theorem C7_expansion_witness :
    cC7.is_maximizing = !(Node.new_root cexC1 0).is_maximizing ∧
    cC7.turn = (Node.new_root cexC1 0).turn + 1 ∧
    cC7.depth = (Node.new_root cexC1 0).depth + 1 ∧
    cC7.value.alpha = (Node.new_root cexC1 0).value.alpha ∧
    cC7.value.beta = (Node.new_root cexC1 0).value.beta ∧
    cC7.value.value = (if cC7.is_maximizing then TerminalState.Heuristic Xq.ninf
      else TerminalState.Heuristic Xq.pinf) ∧
    cC7.parent_id = some (Node.new_root cexC1 0).id ∧
    cC7.id = (initState cexC1).nodes.length ∧
    cC7.best_child = none ∧
    pC7.id = (Node.new_root cexC1 0).id ∧
    (step true 2 (initState cexC1)).queue = cC7.id :: (Node.new_root cexC1 0).id :: [] ∧
    (step true 2 (initState cexC1)).nodes =
      ((initState cexC1).nodes ++ [cC7]).set pC7.id pC7 :=
  C7_expansion (initState cexC1) 0 [] (Node.new_root cexC1 0) pC7 cC7 2 rfl rfl
    (by with_unfolding_all decide) (by with_unfolding_all decide)

/-- The characterization of the iterative-deepening loop, by induction on
its countdown. -/
theorem idLoop_spec (c : Conflict) (maxd fuel : Nat) :
    ∀ counter depth, 1 ≤ depth → depth ≤ maxd → depth + counter = maxd + 1 →
    ∃ d, depth ≤ d ∧ d ≤ maxd ∧
      idLoop c maxd fuel counter depth = minimaxFuel true c d fuel ∧
      (∀ e, depth ≤ e → e < d → stopB c fuel e = false) ∧
      (stopB c fuel d = true ∨ d = maxd) := by
  intro counter
  induction counter with
  | zero => intro depth h1 h2 h3; omega
  | succ k ih =>
    intro depth h1 h2 h3
    unfold idLoop
    cases hstop : stopB c fuel depth with
    | true =>
      refine ⟨depth, le_refl _, h2, ?_, fun e he1 he2 => absurd he2 (by omega), Or.inl hstop⟩
      unfold stopB at hstop
      simp only [] at hstop
      rw [if_pos hstop]
    | false =>
      have hstop' : (!(minimaxFuel true c depth fuel).depth_limited ||
          shouldStop (minimaxFuel true c depth fuel)) = false := hstop
      rw [if_neg (by simp [hstop'])]
      by_cases hceil : maxd < depth + 1
      · rw [if_pos hceil]
        have hdm : depth = maxd := by omega
        exact ⟨depth, le_refl _, h2, rfl, fun e he1 he2 => absurd he2 (by omega),
          Or.inr hdm⟩
      · rw [if_neg hceil]
        obtain ⟨d, hd1, hd2, hd3, hd4, hd5⟩ := ih (depth + 1) (by omega) (by omega) (by omega)
        refine ⟨d, by omega, hd2, hd3, fun e he1 he2 => ?_, hd5⟩
        rcases eq_or_lt_of_le he1 with rfl | hlt
        · exact hstop
        · exact hd4 e (by omega) he2

/-- C8: iterative deepening runs fixed-depth searches from depth 1, returns
the first result that is a decisive win or not depth-limited, never runs a
search deeper than `max(max_n, 1)`, and at the ceiling returns the last
result regardless of its classification. -/
theorem C8_iterative_deepening (c : Conflict) (max_n fuel : Nat) :
    ∃ d, 1 ≤ d ∧ d ≤ Nat.max max_n 1 ∧
      engage c (SolverStrategy.IterativeDeepening max_n) fuel = minimaxFuel true c d fuel ∧
      (∀ e, 1 ≤ e → e < d → stopB c fuel e = false) ∧
      (stopB c fuel d = true ∨ d = Nat.max max_n 1) := by
  have h := idLoop_spec c (Nat.max max_n 1) fuel (Nat.max max_n 1) 1
    (le_refl 1) (Nat.le_max_right max_n 1) (by omega)
  obtain ⟨d, hd1, hd2, hd3, hd4, hd5⟩ := h
  exact ⟨d, hd1, hd2, hd3, hd4, hd5⟩

/-- A root-shaped node always passes the pre-expansion checks, pruning or
not: its beta bound is infinite and it is not at a depth-one horizon. -/
theorem checkPhase_rootOk (p : Bool) (r : Node) (hr : RootOk r) :
    checkPhase p 1 r = CheckResult.continueExpansion := by
  obtain ⟨hmax, hbeta, hdep, _, _⟩ := hr
  simp [checkPhase, hmax, hdep, beta_pinf_no_cutoff _ hbeta]

/-- A fresh depth-one child always reaches the depth check, pruning or not:
its value is the infinite placeholder, which is neither finite nor
negative. -/
theorem checkPhase_childOk (p : Bool) (c : Nat) (ch : Node) (hc : ChildOk c ch) :
    checkPhase p 1 ch = CheckResult.depthLimit := by
  obtain ⟨hmin, hval, hdep, _, _, _⟩ := hc
  simp [checkPhase, hmin, hval, hdep, Value.is_alpha_cutoff, TerminalState.isFinite,
    TerminalState.is_negative, TerminalState.value, Xq.isFinite, Xq.blt, Xq.ble]

/-- In a depth-one search the pruned and unpruned steps agree and preserve
the reachable-state invariant. -/
theorem stepD1 (st : SearchState) (h : InvD1 st) :
    step true 1 st = step false 1 st ∧ InvD1 (step true 1 st) := by
  rcases h with hq | ⟨r, hq, hg, hr⟩ | ⟨c, r, ch, hq, hg, hr, hgc, hc⟩
  · have h1 : step true 1 st = st := by simp only [step, hq]
    have h2 : step false 1 st = st := by simp only [step, hq]
    rw [h1, h2]
    exact ⟨rfl, Or.inl hq⟩
  · have hcp : ∀ p : Bool, checkPhase p 1 r = CheckResult.continueExpansion :=
      fun p => checkPhase_rootOk p r hr
    have hlen : 0 < st.nodes.length := by
      rcases List.getElem?_eq_some_iff.mp hg with ⟨hlt, _⟩
      omega
    constructor
    · simp only [step, hq, hg, hcp true, hcp false]
    · cases hexp : minimax_expand r st.nodes.length with
      | Expanded parent child =>
        obtain ⟨hpid, hpturn, hpdepth, hpmax, hpval, hppar, a, s, hch⟩ :=
          minimax_expand_expanded r st.nodes.length parent child hexp
        have hstep : step true 1 st =
            { st with
              queue := child.id :: parent.id :: []
              evaluations := st.evaluations + 1
              max_visited_depth := Nat.max st.max_visited_depth r.depth
              nodes := (st.nodes ++ [child]).set parent.id parent } := by
          simp only [step, hq, hg, hcp true, hexp]
        rw [hstep]
        refine Or.inr (Or.inr ⟨child.id, parent, child, ?_, ?_, ?_, ?_, ?_⟩)
        · have : parent.id = 0 := by rw [hpid, hr.2.2.2.2]
          rw [this]
        · have hp0 : parent.id = 0 := by rw [hpid, hr.2.2.2.2]
          have hlen' : 0 < (st.nodes ++ [child]).length := by
            rw [List.length_append]
            omega
          rw [hp0]
          exact List.getElem?_set_self hlen'
        · exact ⟨by rw [hpmax]; exact hr.1, by rw [hpval]; exact hr.2.1,
            by rw [hpdepth]; exact hr.2.2.1, by rw [hppar]; exact hr.2.2.2.1, hpid.trans hr.2.2.2.2⟩
        · have hcid : child.id = st.nodes.length := by rw [hch]; rfl
          have hp0 : parent.id = 0 := by rw [hpid, hr.2.2.2.2]
          rw [hp0, List.getElem?_set_ne (by omega : (0 : Nat) ≠ child.id)]
          rw [hcid, List.getElem?_concat_length]
        · subst hch
          have hpm : parent.is_maximizing = true := by rw [hpmax]; exact hr.1
          refine ⟨?_, ?_, ?_, ?_, rfl, ?_⟩
          · simp [Node.new_branch_from, hpm]
          · simp [Node.new_branch_from, hpm, Value.with_value, Value.new_with]
          · simp [Node.new_branch_from]
            rw [hpdepth, hr.2.2.1]
          · simp [Node.new_branch_from]
            rw [hpid, hr.2.2.2.2]
          · show st.nodes.length ≠ 0
            omega
      | Exhausted node =>
        have hstepq : (step true 1 st).queue = [] := by
          simp only [step, hq, hg, hcp true, hexp]
        exact Or.inl hstepq
  · have hcp : ∀ p : Bool, checkPhase p 1 ch = CheckResult.depthLimit :=
      fun p => checkPhase_childOk p c ch hc
    have hchval : ∀ v : TerminalState,
        ({ ch with value := { ch.value with value := v } } : Node).parent_id = some 0 :=
      fun _ => hc.2.2.2.1
    constructor
    · simp only [step, hq, hgc, hcp true, hcp false]
    · have hstep : step true 1 st =
          { st with
            queue := [0]
            evaluations := st.evaluations + 1
            max_visited_depth := Nat.max st.max_visited_depth ch.depth
            nodes := (propagate_to_parent
              (st.nodes.set c { ch with value := { ch.value with value := get_utility ch.state } })
              { ch with value := { ch.value with value := get_utility ch.state } }).1
            depth_limited := true } := by
        simp only [step, hq, hgc, hcp true]
      rw [hstep]
      have hg' : (st.nodes.set c
          { ch with value := { ch.value with value := get_utility ch.state } })[0]? = some r := by
        rw [List.getElem?_set_ne hc.2.2.2.2.2]
        exact hg
      obtain ⟨r', hpr, hr'⟩ := propagate_to_root _ _ r (hchval _) hg' hr
      refine Or.inr (Or.inl ⟨r', rfl, ?_, hr'⟩)
      rw [hpr]
      have hlen : 0 < ((st.nodes.set c
          { ch with value := { ch.value with value := get_utility ch.state } })).length := by
        rcases List.getElem?_eq_some_iff.mp hg with ⟨hlt, _⟩
        rw [List.length_set]
        omega
      exact List.getElem?_set_self (by rw [List.length_set] at hlen ⊢; exact hlen)

/-- The fuelled depth-one runs agree step for step. -/
theorem runD1 (fuel : Nat) (st : SearchState) (h : InvD1 st) :
    runLoop true 1 fuel st = runLoop false 1 fuel st := by
  induction fuel generalizing st with
  | zero => rfl
  | succ k ih =>
    unfold runLoop
    cases hq : st.queue with
    | nil => rfl
    | cons x xs =>
      obtain ⟨heq, hinv⟩ := stepD1 st h
      rw [← heq]
      exact ih _ hinv

/-- C1 (amended): for depth one the pruned search and the pruning-disabled
full traversal coincide exactly — same final state, hence the same
classification; for depth two and beyond the equivalence fails, as the
counterexample shows. -/
theorem C1_amended_depth_one (conflict : Conflict) (fuel : Nat) :
    minimaxFuel true conflict 1 fuel = minimaxFuel false conflict 1 fuel := by
  unfold minimaxFuel
  rw [runD1 fuel (initState conflict)]
  exact Or.inr (Or.inl ⟨Node.new_root conflict 0, rfl, rfl,
    rfl, rfl, rfl, rfl, rfl⟩)

/-- Each emission of the target sweep strictly shrinks its measure. -/
theorem atiNext_some_lt (t t' : ActionTargetIterator) (x : Action × Nat)
    (h : t.next = (some x, t')) : atiMeasure t' < atiMeasure t := by
  unfold ActionTargetIterator.next at h
  cases hit : t.iter with
  | none => rw [hit] at h; simp at h
  | some ai =>
    rw [hit] at h
    by_cases hr : t.enemy_index ≥ t.enemies_end
    · rw [if_pos hr] at h
      cases hix : ai.index with
      | zero =>
        simp only [AttackIterator.next, hix, Option.isNone_none, if_true] at h
        have ht' := congrArg Prod.snd h
        simp only [] at ht'
        subst ht'
        simp only [atiMeasure, hit, hix]
        rw [if_pos hr]
        split_ifs
        all_goals simp
        all_goals omega
      | succ j =>
        simp only [AttackIterator.next, hix, Option.isNone_none, if_true] at h
        simp at h
    · rw [if_neg hr] at h
      cases hact : t.action with
      | some a =>
        simp only [hact, Option.isNone_some, Bool.false_eq_true, if_false] at h
        have ht' := congrArg Prod.snd h
        simp only [] at ht'
        subst ht'
        simp only [atiMeasure, hit, hact]
        rw [if_neg hr]
        split_ifs
        all_goals simp
        all_goals omega
      | none =>
        cases hix : ai.index with
        | zero =>
          simp only [hact, AttackIterator.next, hix, Option.isNone_none, if_true] at h
          have ht' := congrArg Prod.snd h
          simp only [] at ht'
          subst ht'
          simp only [atiMeasure, hit, hact, hix]
          rw [if_neg hr]
          split_ifs
          all_goals simp
          all_goals omega
        | succ j =>
          simp only [hact, AttackIterator.next, hix, Option.isNone_none, if_true] at h
          simp at h

/-- Skipping an ineligible member shrinks the generator measure. -/
theorem aiMeasure_skip (s : ActionIterator) (h : s.current_index < s.range_end) :
    aiMeasure { s with current_index := s.current_index + 1 } < aiMeasure s := by
  unfold aiMeasure
  have h2 : (s.range_end - (s.current_index + 1)) * (s.opponent.members.length + 2) <
      (s.range_end - s.current_index) * (s.opponent.members.length + 2) :=
    Nat.mul_lt_mul_of_pos_right (by omega) (by omega)
  exact Nat.add_lt_add_right h2 _ |>.trans_le (by
    exact Nat.add_le_add_left (Nat.le_refl _) _) |>.trans_le (Nat.le_refl _)

/-- Moving past an exhausted member sweep shrinks the generator measure. -/
theorem aiMeasure_exhaust (s : ActionIterator) (h : s.current_index < s.range_end) :
    aiMeasure { s with current_index := s.current_index + 1, iter := none } < aiMeasure s := by
  unfold aiMeasure aiIterMeasure
  have hsplit : s.range_end - s.current_index = (s.range_end - (s.current_index + 1)) + 1 := by
    omega
  have hlt : (s.range_end - (s.current_index + 1)) * (s.opponent.members.length + 2) +
      (s.opponent.members.length + 1) <
      (s.range_end - s.current_index) * (s.opponent.members.length + 2) := by
    rw [hsplit, Nat.add_mul, one_mul]
    exact Nat.add_lt_add_left (by omega) _
  calc (s.range_end - (s.current_index + 1)) * (s.opponent.members.length + 2) +
        (s.opponent.members.length + 1)
      < (s.range_end - s.current_index) * (s.opponent.members.length + 2) := hlt
    _ ≤ _ := Nat.le_add_right _ _

/-- A fresh sweep's measure is bounded by the target count plus one. -/
theorem atiMeasure_new (m : PartyMember) (L : Nat) :
    atiMeasure (ActionTargetIterator.new m 0 L) ≤ L + 1 := by
  unfold atiMeasure ActionTargetIterator.new PartyMember.actions
  split_ifs
  all_goals simp

/-- Advancing the attached sweep shrinks the generator measure. -/
theorem aiMeasure_advance_some (s : ActionIterator) (t t' : ActionTargetIterator)
    (x : Action × Nat) (hit : s.iter = some t) (hnx : t.next = (some x, t')) :
    aiMeasure { s with iter := some t' } < aiMeasure s := by
  unfold aiMeasure aiIterMeasure
  simp only [hit]
  exact Nat.add_lt_add_left (atiNext_some_lt t t' x hnx) _

/-- Advancing a freshly created sweep shrinks the generator measure. -/
theorem aiMeasure_advance_fresh (s : ActionIterator) (m : PartyMember)
    (t' : ActionTargetIterator) (x : Action × Nat) (hit : s.iter = none)
    (hnx : (ActionTargetIterator.new m 0 s.opponent.members.length).next = (some x, t')) :
    aiMeasure { s with iter := some t' } < aiMeasure s := by
  have h1 := atiNext_some_lt _ _ x hnx
  have h2 := atiMeasure_new m s.opponent.members.length
  unfold aiMeasure aiIterMeasure
  simp only [hit]
  exact Nat.add_lt_add_left (by omega) _

/-- Every emitted move strictly shrinks the generator measure, at any fuel. -/
theorem aiNextLoop_some_lt :
    ∀ fuel s a s', aiNextLoop fuel s = (some a, s') → aiMeasure s' < aiMeasure s := by
  intro fuel
  induction fuel with
  | zero => intro s a s' h; simp [aiNextLoop] at h
  | succ f ih =>
    intro s a s' h
    rw [aiNextLoop] at h
    by_cases h1 : s.current_index ≥ s.range_end
    · rw [if_pos h1] at h; simp at h
    · rw [if_neg h1] at h
      cases hm : s.current.members[s.current_index]? with
      | none => simp only [hm] at h; simp at h
      | some member =>
        simp only [hm] at h
        cases hca : member.can_act with
        | false =>
          simp only [hca, Bool.not_false, if_true] at h
          exact lt_trans (ih _ _ _ h) (aiMeasure_skip s (by omega))
        | true =>
          simp only [hca, Bool.not_true, Bool.false_eq_true, if_false] at h
          cases hit : s.iter with
          | none =>
            simp only [hit] at h
            cases hnx : (ActionTargetIterator.new member 0 s.opponent.members.length).next with
            | mk o it' =>
              cases o with
              | none =>
                simp only [hnx] at h
                exact lt_trans (ih _ _ _ h) (aiMeasure_exhaust s (by omega))
              | some p =>
                obtain ⟨action, tidx⟩ := p
                simp only [hnx] at h
                cases ht : s.opponent.members[tidx]? with
                | none => simp only [ht] at h; simp at h
                | some opponentm =>
                  simp only [ht] at h
                  cases hap : opponentm.is_applicable action with
                  | false =>
                    simp only [hap, Bool.not_false, if_true] at h
                    exact lt_trans (ih _ _ _ h)
                      (aiMeasure_advance_fresh s member it' _ hit hnx)
                  | true =>
                    simp only [hap, Bool.not_true, Bool.false_eq_true, if_false] at h
                    have hs' := congrArg Prod.snd h
                    simp only [] at hs'
                    rw [← hs']
                    exact aiMeasure_advance_fresh s member it' _ hit hnx
          | some t =>
            simp only [hit] at h
            cases hnx : t.next with
            | mk o it' =>
              cases o with
              | none =>
                simp only [hnx] at h
                exact lt_trans (ih _ _ _ h) (aiMeasure_exhaust s (by omega))
              | some p =>
                obtain ⟨action, tidx⟩ := p
                simp only [hnx] at h
                cases ht : s.opponent.members[tidx]? with
                | none => simp only [ht] at h; simp at h
                | some opponentm =>
                  simp only [ht] at h
                  cases hap : opponentm.is_applicable action with
                  | false =>
                    simp only [hap, Bool.not_false, if_true] at h
                    exact lt_trans (ih _ _ _ h) (aiMeasure_advance_some s t it' _ hit hnx)
                  | true =>
                    simp only [hap, Bool.not_true, Bool.false_eq_true, if_false] at h
                    have hs' := congrArg Prod.snd h
                    simp only [] at hs'
                    rw [← hs']
                    exact aiMeasure_advance_some s t it' _ hit hnx

/-- With fuel above the measure, the generator loop computes
`ActionIterator.next` regardless of the exact fuel. -/
theorem aiNextLoop_stable :
    ∀ fuel s, aiMeasure s < fuel → aiNextLoop fuel s = ActionIterator.next s := by
  intro fuel
  induction fuel using Nat.strong_induction_on with
  | _ fuel ih =>
    intro s hs
    match fuel, hs with
    | f + 1, hs =>
      show aiNextLoop (f + 1) s = aiNextLoop (aiMeasure s + 1) s
      have hrec : ∀ s₁ : ActionIterator, aiMeasure s₁ < aiMeasure s →
          aiNextLoop f s₁ = aiNextLoop (aiMeasure s) s₁ := by
        intro s₁ hlt
        have hle : aiMeasure s ≤ f := by omega
        have e1 : aiNextLoop f s₁ = ActionIterator.next s₁ := by
          rcases Nat.lt_or_ge (aiMeasure s₁) f with hf | hf
          · exact ih f (by omega) s₁ hf
          · have : aiMeasure s = f := by omega
            have : aiMeasure s₁ < f := by omega
            exact ih f (by omega) s₁ this
        have e2 : aiNextLoop (aiMeasure s) s₁ = ActionIterator.next s₁ :=
          ih (aiMeasure s) (by omega) s₁ hlt
        rw [e1, e2]
      rw [aiNextLoop, aiNextLoop]
      by_cases h1 : s.current_index ≥ s.range_end
      · rw [if_pos h1, if_pos h1]
      · rw [if_neg h1, if_neg h1]
        cases hm : s.current.members[s.current_index]? with
        | none => simp only [hm]
        | some member =>
          simp only [hm]
          cases hca : member.can_act with
          | false =>
            simp only [hca, Bool.not_false, if_true]
            exact hrec _ (aiMeasure_skip s (by omega))
          | true =>
            simp only [hca, Bool.not_true, Bool.false_eq_true, if_false]
            cases hit : s.iter with
            | none =>
              simp only [hit]
              cases hnx : (ActionTargetIterator.new member 0 s.opponent.members.length).next with
              | mk o it' =>
                cases o with
                | none =>
                  simp only [hnx]
                  exact hrec _ (aiMeasure_exhaust s (by omega))
                | some p =>
                  obtain ⟨action, tidx⟩ := p
                  simp only [hnx]
                  cases ht : s.opponent.members[tidx]? with
                  | none => simp only [ht]
                  | some opponentm =>
                    simp only [ht]
                    cases hap : opponentm.is_applicable action with
                    | false =>
                      simp only [hap, Bool.not_false, if_true]
                      exact hrec _ (aiMeasure_advance_fresh s member it' _ hit hnx)
                    | true =>
                      simp only [hap, Bool.not_true, Bool.false_eq_true, if_false]
            | some t =>
              simp only [hit]
              cases hnx : t.next with
              | mk o it' =>
                cases o with
                | none =>
                  simp only [hnx]
                  exact hrec _ (aiMeasure_exhaust s (by omega))
                | some p =>
                  obtain ⟨action, tidx⟩ := p
                  simp only [hnx]
                  cases ht : s.opponent.members[tidx]? with
                  | none => simp only [ht]
                  | some opponentm =>
                    simp only [ht]
                    cases hap : opponentm.is_applicable action with
                    | false =>
                      simp only [hap, Bool.not_false, if_true]
                      exact hrec _ (aiMeasure_advance_some s t it' _ hit hnx)
                    | true =>
                      simp only [hap, Bool.not_true, Bool.false_eq_true, if_false]

/-- Each emitted move strictly shrinks the measure. -/
theorem next_some_lt (s : ActionIterator) (a : AppliedAction) (s' : ActionIterator)
    (h : ActionIterator.next s = (some a, s')) : aiMeasure s' < aiMeasure s :=
  aiNextLoop_some_lt _ s a s' h

/-- With fuel above the measure, the emission list is fuel-independent. -/
theorem emitListFuel_stable :
    ∀ fuel s, aiMeasure s < fuel → emitListFuel fuel s = emitList s := by
  intro fuel
  induction fuel using Nat.strong_induction_on with
  | _ fuel ih =>
    intro s hs
    match fuel, hs with
    | f + 1, hs =>
      show emitListFuel (f + 1) s = emitListFuel (aiMeasure s + 1) s
      rw [emitListFuel, emitListFuel]
      cases hnx : ActionIterator.next s with
      | mk o s' =>
        cases o with
        | none => simp only [hnx]
        | some a =>
          simp only [hnx]
          have hlt : aiMeasure s' < aiMeasure s := next_some_lt s a s' hnx
          have e1 : emitListFuel f s' = emitList s' := by
            rcases Nat.lt_or_ge (aiMeasure s') f with hf | hf
            · exact ih f (by omega) s' hf
            · have : aiMeasure s' < f := by omega
              exact ih f (by omega) s' this
          have e2 : emitListFuel (aiMeasure s) s' = emitList s' :=
            ih (aiMeasure s) (by omega) s' hlt
          rw [e1, e2]

/-- The one-step unfolding of the emission list. -/
theorem emitList_eq (s : ActionIterator) :
    emitList s = match ActionIterator.next s with
      | (none, _) => []
      | (some a, s') => a :: emitList s' := by
  unfold emitList
  rw [emitListFuel]
  cases hnx : ActionIterator.next s with
  | mk o s' =>
    cases o with
    | none => simp only [hnx]
    | some a =>
      simp only [hnx]
      rw [emitListFuel_stable (aiMeasure s) s' (next_some_lt s a s' hnx)]
      rfl

/-- Emission lists of states with equal next steps agree. -/
theorem emit_congr (s s' : ActionIterator)
    (h : ActionIterator.next s = ActionIterator.next s') : emitList s = emitList s' := by
  rw [emitList_eq, h, ← emitList_eq]

/-- An emitting step prepends the emitted move to the rest of the emission. -/
theorem emit_cons (s s' : ActionIterator) (a : AppliedAction)
    (h : ActionIterator.next s = (some a, s')) : emitList s = a :: emitList s' := by
  rw [emitList_eq, h]

/-- A fresh sweep over at least one enemy emits the member's attack at
enemy zero. -/
theorem ati_fresh_next (m : PartyMember) (L : Nat) (hL : 1 ≤ L) :
    (ActionTargetIterator.new m 0 L).next =
      (some (memberAttack m, 0), ⟨1, 0, L, some ⟨m, 1⟩, some (memberAttack m)⟩) := by
  match L, hL with
  | L + 1, _ => rfl

/-- Mid-sweep with targets left: emit the held action at the next enemy. -/
theorem ati_mid_next (m : PartyMember) (a : Action) (k L : Nat) (hk : k < L) :
    (ActionTargetIterator.next ⟨k, 0, L, some ⟨m, 1⟩, some a⟩) =
      (some (a, k), ⟨k + 1, 0, L, some ⟨m, 1⟩, some a⟩) := by
  unfold ActionTargetIterator.next
  have hcond : ¬((⟨k, 0, L, some ⟨m, 1⟩, some a⟩ : ActionTargetIterator).enemy_index ≥
      (⟨k, 0, L, some ⟨m, 1⟩, some a⟩ : ActionTargetIterator).enemies_end) := by
    simp only []
    omega
  rw [if_neg hcond]
  rfl

/-- Mid-sweep past the last target: wrap, find no further action, and
discard the attack generator. -/
theorem ati_mid_end (m : PartyMember) (a : Action) (k L : Nat) (hk : L ≤ k) :
    (ActionTargetIterator.next ⟨k, 0, L, some ⟨m, 1⟩, some a⟩) =
      (none, ⟨0, 0, L, none, none⟩) := by
  unfold ActionTargetIterator.next
  have hcond : (⟨k, 0, L, some ⟨m, 1⟩, some a⟩ : ActionTargetIterator).enemy_index ≥
      (⟨k, 0, L, some ⟨m, 1⟩, some a⟩ : ActionTargetIterator).enemies_end := by
    simp only []
    omega
  rw [if_pos hcond]
  rfl

/-- Past the member range the generator is exhausted. -/
theorem next_end (s : ActionIterator) (h : s.range_end ≤ s.current_index) :
    ActionIterator.next s = (none, s) := by
  show aiNextLoop (aiMeasure s + 1) s = (none, s)
  rw [aiNextLoop, if_pos h]

/-- An ineligible member is skipped without emitting. -/
theorem next_skip (s : ActionIterator) (member : PartyMember)
    (h1 : ¬ s.range_end ≤ s.current_index)
    (hm : s.current.members[s.current_index]? = some member)
    (hca : member.can_act = false) :
    ActionIterator.next s = ActionIterator.next { s with current_index := s.current_index + 1 } := by
  show aiNextLoop (aiMeasure s + 1) s = _
  rw [aiNextLoop, if_neg h1]
  simp only [hm, hca, Bool.not_false, if_true]
  exact aiNextLoop_stable (aiMeasure s) _ (aiMeasure_skip s (by omega))

/-- First visit of an eligible member against an applicable first target:
the attack at enemy zero is emitted and the sweep cursor is stored. -/
theorem next_fresh_emit (s : ActionIterator) (member tm : PartyMember)
    (h1 : ¬ s.range_end ≤ s.current_index)
    (hm : s.current.members[s.current_index]? = some member)
    (hca : member.can_act = true)
    (hit : s.iter = none)
    (h0 : s.opponent.members[0]? = some tm)
    (hap : tm.is_applicable (memberAttack member) = true) :
    ActionIterator.next s =
      (some (AppliedAction.Targeted ⟨memberAttack member, ⟨s.current.id, member.id⟩,
        ⟨s.opponent.id, tm.id⟩⟩),
       { s with iter := some ⟨1, 0, s.opponent.members.length, some ⟨member, 1⟩,
         some (memberAttack member)⟩ }) := by
  have hL : 1 ≤ s.opponent.members.length := by
    rcases List.getElem?_eq_some_iff.mp h0 with ⟨hlt, _⟩
    omega
  show aiNextLoop (aiMeasure s + 1) s = _
  rw [aiNextLoop, if_neg h1]
  simp only [hm, hca, Bool.not_true, Bool.false_eq_true, if_false, hit]
  rw [ati_fresh_next member _ hL]
  simp only [h0, hap, Bool.not_true, Bool.false_eq_true, if_false]

/-- First visit of an eligible member whose first target is dead: the
candidate is discarded and the pull continues from the stored cursor. -/
theorem next_fresh_skipdead (s : ActionIterator) (member tm : PartyMember)
    (h1 : ¬ s.range_end ≤ s.current_index)
    (hm : s.current.members[s.current_index]? = some member)
    (hca : member.can_act = true)
    (hit : s.iter = none)
    (h0 : s.opponent.members[0]? = some tm)
    (hap : tm.is_applicable (memberAttack member) = false) :
    ActionIterator.next s =
      ActionIterator.next { s with iter := some ⟨1, 0, s.opponent.members.length,
        some ⟨member, 1⟩, some (memberAttack member)⟩ } := by
  have hL : 1 ≤ s.opponent.members.length := by
    rcases List.getElem?_eq_some_iff.mp h0 with ⟨hlt, _⟩
    omega
  show aiNextLoop (aiMeasure s + 1) s = _
  rw [aiNextLoop, if_neg h1]
  simp only [hm, hca, Bool.not_true, Bool.false_eq_true, if_false, hit]
  rw [ati_fresh_next member _ hL]
  simp only [h0, hap, Bool.not_false, if_true]
  exact aiNextLoop_stable (aiMeasure s) _
    (aiMeasure_advance_fresh s member _ _ hit (ati_fresh_next member _ hL))

/-- Mid-sweep with an applicable target: emit and advance the cursor. -/
theorem next_mid_emit (s : ActionIterator) (member tm : PartyMember) (k : Nat)
    (h1 : ¬ s.range_end ≤ s.current_index)
    (hm : s.current.members[s.current_index]? = some member)
    (hca : member.can_act = true)
    (hit : s.iter = some ⟨k, 0, s.opponent.members.length, some ⟨member, 1⟩,
      some (memberAttack member)⟩)
    (hk : k < s.opponent.members.length)
    (htm : s.opponent.members[k]? = some tm)
    (hap : tm.is_applicable (memberAttack member) = true) :
    ActionIterator.next s =
      (some (AppliedAction.Targeted ⟨memberAttack member, ⟨s.current.id, member.id⟩,
        ⟨s.opponent.id, tm.id⟩⟩),
       { s with iter := some ⟨k + 1, 0, s.opponent.members.length, some ⟨member, 1⟩,
         some (memberAttack member)⟩ }) := by
  show aiNextLoop (aiMeasure s + 1) s = _
  rw [aiNextLoop, if_neg h1]
  simp only [hm, hca, Bool.not_true, Bool.false_eq_true, if_false, hit]
  rw [ati_mid_next member _ k _ hk]
  simp only [htm, hap, Bool.not_true, Bool.false_eq_true, if_false]

/-- Mid-sweep against a dead target: discard and continue. -/
theorem next_mid_skipdead (s : ActionIterator) (member tm : PartyMember) (k : Nat)
    (h1 : ¬ s.range_end ≤ s.current_index)
    (hm : s.current.members[s.current_index]? = some member)
    (hca : member.can_act = true)
    (hit : s.iter = some ⟨k, 0, s.opponent.members.length, some ⟨member, 1⟩,
      some (memberAttack member)⟩)
    (hk : k < s.opponent.members.length)
    (htm : s.opponent.members[k]? = some tm)
    (hap : tm.is_applicable (memberAttack member) = false) :
    ActionIterator.next s =
      ActionIterator.next { s with iter := some ⟨k + 1, 0, s.opponent.members.length,
        some ⟨member, 1⟩, some (memberAttack member)⟩ } := by
  show aiNextLoop (aiMeasure s + 1) s = _
  rw [aiNextLoop, if_neg h1]
  simp only [hm, hca, Bool.not_true, Bool.false_eq_true, if_false, hit]
  rw [ati_mid_next member _ k _ hk]
  simp only [htm, hap, Bool.not_false, if_true]
  exact aiNextLoop_stable (aiMeasure s) _
    (aiMeasure_advance_some s _ _ _ hit (ati_mid_next member _ k _ hk))

/-- Mid-sweep past the last target: the member is done, move on. -/
theorem next_mid_end (s : ActionIterator) (member : PartyMember) (k : Nat)
    (h1 : ¬ s.range_end ≤ s.current_index)
    (hm : s.current.members[s.current_index]? = some member)
    (hca : member.can_act = true)
    (hit : s.iter = some ⟨k, 0, s.opponent.members.length, some ⟨member, 1⟩,
      some (memberAttack member)⟩)
    (hk : s.opponent.members.length ≤ k) :
    ActionIterator.next s =
      ActionIterator.next { s with current_index := s.current_index + 1, iter := none } := by
  show aiNextLoop (aiMeasure s + 1) s = _
  rw [aiNextLoop, if_neg h1]
  simp only [hm, hca, Bool.not_true, Bool.false_eq_true, if_false, hit]
  rw [ati_mid_end member _ k _ hk]
  exact aiNextLoop_stable (aiMeasure s) _ (aiMeasure_exhaust s (by omega))

/-- The emission of a mid-sweep state is the remaining applicable targets
followed by the emission from the next member on. -/
theorem emit_mid (cur opp : Party) (i : Nat) (m : PartyMember)
    (hm : cur.members[i]? = some m) (hca : m.can_act = true) :
    ∀ d k, k ≤ opp.members.length → opp.members.length - k = d →
    emitList (midState cur opp i m k) =
      sweepFrom cur opp m k ++ emitList (freshState cur opp (i + 1)) := by
  have hi : i < cur.members.length := (List.getElem?_eq_some_iff.mp hm).1
  intro d
  induction d with
  | zero =>
    intro k hk1 hk2
    have hkL : k = opp.members.length := by omega
    subst hkL
    have h1 : ¬ (midState cur opp i m opp.members.length).range_end ≤
        (midState cur opp i m opp.members.length).current_index := by
      simp only [midState]
      omega
    have hnext := next_mid_end (midState cur opp i m opp.members.length) m
      opp.members.length h1 hm hca rfl (le_refl _)
    have hconv : ({ midState cur opp i m opp.members.length with
        current_index := (midState cur opp i m opp.members.length).current_index + 1,
        iter := none } : ActionIterator) = freshState cur opp (i + 1) := rfl
    rw [hconv] at hnext
    rw [emit_congr _ _ hnext]
    have hsw : sweepFrom cur opp m opp.members.length = [] := by
      unfold sweepFrom
      rw [List.drop_length]
      rfl
    rw [hsw, List.nil_append]
  | succ d ihd =>
    intro k hk1 hk2
    have hkL : k < opp.members.length := by omega
    have hget : opp.members[k]? = some (opp.members[k]) := List.getElem?_eq_getElem hkL
    have hdrop : opp.members.drop k = opp.members[k] :: opp.members.drop (k + 1) :=
      List.drop_eq_getElem_cons hkL
    have h1 : ¬ (midState cur opp i m k).range_end ≤
        (midState cur opp i m k).current_index := by
      simp only [midState]
      omega
    have hconv : ({ midState cur opp i m k with
        iter := some ⟨k + 1, 0, opp.members.length, some ⟨m, 1⟩,
          some (memberAttack m)⟩ } : ActionIterator) = midState cur opp i m (k + 1) := rfl
    cases hap : (opp.members[k]).is_applicable (memberAttack m) with
    | true =>
      have hnext := next_mid_emit (midState cur opp i m k) m (opp.members[k]) k
        h1 hm hca rfl hkL hget hap
      rw [show ({ midState cur opp i m k with
        iter := some ⟨k + 1, 0, (midState cur opp i m k).opponent.members.length,
          some ⟨m, 1⟩, some (memberAttack m)⟩ } : ActionIterator) =
          midState cur opp i m (k + 1) from rfl] at hnext
      rw [emit_cons _ _ _ hnext, ihd (k + 1) (by omega) (by omega)]
      have hsw : sweepFrom cur opp m k =
          AppliedAction.Targeted ⟨memberAttack m, ⟨cur.id, m.id⟩,
            ⟨opp.id, (opp.members[k]).id⟩⟩ :: sweepFrom cur opp m (k + 1) := by
        unfold sweepFrom
        rw [hdrop, @List.filter_cons_of_pos _
          (fun tm : PartyMember => tm.is_applicable (memberAttack m))
          (opp.members[k]) _ hap, List.map_cons]
      rw [hsw, List.cons_append]
      rfl
    | false =>
      have hnext := next_mid_skipdead (midState cur opp i m k) m (opp.members[k]) k
        h1 hm hca rfl hkL hget hap
      rw [show ({ midState cur opp i m k with
        iter := some ⟨k + 1, 0, (midState cur opp i m k).opponent.members.length,
          some ⟨m, 1⟩, some (memberAttack m)⟩ } : ActionIterator) =
          midState cur opp i m (k + 1) from rfl] at hnext
      rw [emit_congr _ _ hnext, ihd (k + 1) (by omega) (by omega)]
      have hsw : sweepFrom cur opp m k = sweepFrom cur opp m (k + 1) := by
        unfold sweepFrom
        rw [hdrop, @List.filter_cons_of_neg _
          (fun tm : PartyMember => tm.is_applicable (memberAttack m))
          (opp.members[k]) _ (by simp [hap])]
      rw [hsw]

/-- The emission from member `i` on is the canonical nested enumeration
from member `i` on. -/
theorem emit_fresh (cur opp : Party) (hL : 1 ≤ opp.members.length) :
    ∀ d i, cur.members.length - i = d →
    emitList (freshState cur opp i) = canonicalFrom cur opp i := by
  intro d
  induction d with
  | zero =>
    intro i hd
    have hi : cur.members.length ≤ i := by omega
    rw [emitList_eq, next_end _ (show (freshState cur opp i).range_end ≤
      (freshState cur opp i).current_index from hi)]
    unfold canonicalFrom
    rw [List.drop_eq_nil_of_le hi]
    rfl
  | succ d ihd =>
    intro i hd
    have hi : i < cur.members.length := by omega
    have hm : cur.members[i]? = some (cur.members[i]) := List.getElem?_eq_getElem hi
    have hdropc : cur.members.drop i = cur.members[i] :: cur.members.drop (i + 1) :=
      List.drop_eq_getElem_cons hi
    have h1 : ¬ (freshState cur opp i).range_end ≤ (freshState cur opp i).current_index := by
      simp only [freshState]
      omega
    cases hca : (cur.members[i]).can_act with
    | false =>
      have hnext := next_skip (freshState cur opp i) _ h1 hm hca
      rw [show ({ freshState cur opp i with
        current_index := (freshState cur opp i).current_index + 1 } : ActionIterator) =
          freshState cur opp (i + 1) from rfl] at hnext
      rw [emit_congr _ _ hnext, ihd (i + 1) (by omega)]
      unfold canonicalFrom
      rw [hdropc, @List.filter_cons_of_neg _ (fun m : PartyMember => m.can_act)
        (cur.members[i]) _ (by simp [hca])]
    | true =>
      have h0 : opp.members[0]? = some (opp.members[0]) :=
        List.getElem?_eq_getElem (by omega)
      have hdrop0 : opp.members.drop 0 = opp.members[0] :: opp.members.drop 1 :=
        List.drop_eq_getElem_cons (by omega)
      have hcanon : canonicalFrom cur opp i =
          ((opp.members.filter
            (fun tm => tm.is_applicable (memberAttack (cur.members[i])))).map
            (fun tm => AppliedAction.Targeted ⟨memberAttack (cur.members[i]),
              ⟨cur.id, (cur.members[i]).id⟩, ⟨opp.id, tm.id⟩⟩)) ++
            canonicalFrom cur opp (i + 1) := by
        unfold canonicalFrom
        rw [hdropc, @List.filter_cons_of_pos _ (fun m : PartyMember => m.can_act)
          (cur.members[i]) _ hca, List.flatMap_cons]
      cases hap : (opp.members[0]).is_applicable (memberAttack (cur.members[i])) with
      | true =>
        have hnext := next_fresh_emit (freshState cur opp i) _ _ h1 hm hca rfl h0 hap
        rw [show ({ freshState cur opp i with
          iter := some ⟨1, 0, (freshState cur opp i).opponent.members.length,
            some ⟨cur.members[i], 1⟩, some (memberAttack (cur.members[i]))⟩ } :
            ActionIterator) = midState cur opp i (cur.members[i]) 1 from rfl] at hnext
        rw [emit_cons _ _ _ hnext]
        rw [emit_mid cur opp i _ hm hca (opp.members.length - 1) 1 (by omega) (by omega)]
        rw [ihd (i + 1) (by omega), hcanon]
        have hsw : (opp.members.filter
            (fun tm => tm.is_applicable (memberAttack (cur.members[i])))).map
            (fun tm => AppliedAction.Targeted ⟨memberAttack (cur.members[i]),
              ⟨cur.id, (cur.members[i]).id⟩, ⟨opp.id, tm.id⟩⟩) =
            AppliedAction.Targeted ⟨memberAttack (cur.members[i]),
              ⟨cur.id, (cur.members[i]).id⟩, ⟨opp.id, (opp.members[0]).id⟩⟩ ::
              sweepFrom cur opp (cur.members[i]) 1 := by
          conv_lhs => rw [show opp.members = opp.members.drop 0 from (List.drop_zero _).symm,
            hdrop0]
          rw [@List.filter_cons_of_pos _
            (fun tm : PartyMember => tm.is_applicable (memberAttack (cur.members[i])))
            (opp.members[0]) _ hap, List.map_cons]
          rfl
        rw [hsw, List.cons_append]
        rfl
      | false =>
        have hnext := next_fresh_skipdead (freshState cur opp i) _ _ h1 hm hca rfl h0 hap
        rw [show ({ freshState cur opp i with
          iter := some ⟨1, 0, (freshState cur opp i).opponent.members.length,
            some ⟨cur.members[i], 1⟩, some (memberAttack (cur.members[i]))⟩ } :
            ActionIterator) = midState cur opp i (cur.members[i]) 1 from rfl] at hnext
        rw [emit_congr _ _ hnext]
        rw [emit_mid cur opp i _ hm hca (opp.members.length - 1) 1 (by omega) (by omega)]
        rw [ihd (i + 1) (by omega), hcanon]
        have hsw : (opp.members.filter
            (fun tm => tm.is_applicable (memberAttack (cur.members[i])))).map
            (fun tm => AppliedAction.Targeted ⟨memberAttack (cur.members[i]),
              ⟨cur.id, (cur.members[i]).id⟩, ⟨opp.id, tm.id⟩⟩) =
            sweepFrom cur opp (cur.members[i]) 1 := by
          conv_lhs => rw [show opp.members = opp.members.drop 0 from (List.drop_zero _).symm,
            hdrop0]
          rw [@List.filter_cons_of_neg _
            (fun tm : PartyMember => tm.is_applicable (memberAttack (cur.members[i])))
            (opp.members[0]) _ (by simp [hap])]
          rfl
        rw [hsw]

/-- C6 (amended): the generator emits no leading `Withdraw` (it never emits
one at all); its emission is exactly the canonical nested enumeration —
acting members in list order with members that cannot act skipped, each
member's single weapon attack, and for it the applicable opponent targets
in list order, all targets of a member exhausted before the next member —
and any sufficiently large fuel yields the same finite list, so the
sequence is finite. -/
theorem C6_amended (cur opp : Party) (hne : 1 ≤ opp.members.length) :
    emitList (ActionIterator.new cur opp) = canonicalMoves cur opp ∧
    ∀ fuel, aiMeasure (ActionIterator.new cur opp) < fuel →
      emitListFuel fuel (ActionIterator.new cur opp) = canonicalMoves cur opp := by
  have h1 : emitList (ActionIterator.new cur opp) = canonicalMoves cur opp := by
    rw [show ActionIterator.new cur opp = freshState cur opp 0 from rfl]
    exact emit_fresh cur opp hne cur.members.length 0 (by omega)
  exact ⟨h1, fun fuel hf => (emitListFuel_stable fuel _ hf).trans h1⟩

/-- Every move the generator loop emits is a targeted action aimed at an
applicable (alive) opponent member. -/
theorem aiNextLoop_emit_applicable :
    ∀ fuel s a s₂, aiNextLoop fuel s = (some a, s₂) →
      ∃ t : TargetedAction, a = AppliedAction.Targeted t ∧
        ∃ tm ∈ s.opponent.members, tm.is_applicable t.action = true ∧
          t.target = ⟨s.opponent.id, tm.id⟩ := by
  intro fuel
  induction fuel with
  | zero => intro s a s₂ h; simp [aiNextLoop] at h
  | succ f ih =>
    intro s a s₂ h
    rw [aiNextLoop] at h
    by_cases h1 : s.current_index ≥ s.range_end
    · rw [if_pos h1] at h; simp at h
    · rw [if_neg h1] at h
      cases hm : s.current.members[s.current_index]? with
      | none => simp only [hm] at h; simp at h
      | some member =>
        simp only [hm] at h
        cases hca : member.can_act with
        | false =>
          simp only [hca, Bool.not_false, if_true] at h
          have hrec := ih _ _ _ h
          exact hrec
        | true =>
          simp only [hca, Bool.not_true, Bool.false_eq_true, if_false] at h
          cases hit : s.iter with
          | none =>
            simp only [hit] at h
            cases hnx : (ActionTargetIterator.new member 0 s.opponent.members.length).next with
            | mk o it2 =>
              cases o with
              | none =>
                simp only [hnx] at h
                have hrec := ih _ _ _ h
                exact hrec
              | some p =>
                obtain ⟨action, tidx⟩ := p
                simp only [hnx] at h
                cases ht : s.opponent.members[tidx]? with
                | none => simp only [ht] at h; simp at h
                | some opponentm =>
                  simp only [ht] at h
                  cases hap : opponentm.is_applicable action with
                  | false =>
                    simp only [hap, Bool.not_false, if_true] at h
                    have hrec := ih _ _ _ h
                    exact hrec
                  | true =>
                    simp only [hap, Bool.not_true, Bool.false_eq_true, if_false] at h
                    have ha := congrArg Prod.fst h
                    simp only [] at ha
                    have hmem : opponentm ∈ s.opponent.members := by
                      obtain ⟨hlt, hEq⟩ := List.getElem?_eq_some_iff.mp ht
                      exact hEq ▸ List.getElem_mem hlt
                    exact ⟨⟨action, ⟨s.current.id, member.id⟩, ⟨s.opponent.id, opponentm.id⟩⟩,
                      (Option.some_inj.mp ha).symm, opponentm, hmem, hap, rfl⟩
          | some t =>
            simp only [hit] at h
            cases hnx : t.next with
            | mk o it2 =>
              cases o with
              | none =>
                simp only [hnx] at h
                have hrec := ih _ _ _ h
                exact hrec
              | some p =>
                obtain ⟨action, tidx⟩ := p
                simp only [hnx] at h
                cases ht : s.opponent.members[tidx]? with
                | none => simp only [ht] at h; simp at h
                | some opponentm =>
                  simp only [ht] at h
                  cases hap : opponentm.is_applicable action with
                  | false =>
                    simp only [hap, Bool.not_false, if_true] at h
                    have hrec := ih _ _ _ h
                    exact hrec
                  | true =>
                    simp only [hap, Bool.not_true, Bool.false_eq_true, if_false] at h
                    have ha := congrArg Prod.fst h
                    simp only [] at ha
                    have hmem : opponentm ∈ s.opponent.members := by
                      obtain ⟨hlt, hEq⟩ := List.getElem?_eq_some_iff.mp ht
                      exact hEq ▸ List.getElem_mem hlt
                    exact ⟨⟨action, ⟨s.current.id, member.id⟩, ⟨s.opponent.id, opponentm.id⟩⟩,
                      (Option.some_inj.mp ha).symm, opponentm, hmem, hap, rfl⟩

/-- C5 (amended): the generator does filter by target eligibility — every
emitted move is a targeted attack at an applicable (alive) opponent member
— and the engine, on pulling a move whose effect does not take hold, does
not pull the next move: it reports the node exhausted, storing the
advanced generator position. -/
theorem C5_amended :
    (∀ fuel s a s₂, aiNextLoop fuel s = (some a, s₂) →
      ∃ t : TargetedAction, a = AppliedAction.Targeted t ∧
        ∃ tm ∈ s.opponent.members, tm.is_applicable t.action = true ∧
          t.target = ⟨s.opponent.id, tm.id⟩) ∧
    (∀ (node : Node) (k : Nat) (it it₂ : ActionIterator) (ta : TargetedAction),
      (if node.is_maximizing then node.state.initiator
        else node.state.opponent).has_retreated = false →
      node.action_iter = some it →
      it.next = (some (AppliedAction.Targeted ta), it₂) →
      (((if node.is_maximizing then node.state.opponent
          else node.state.initiator).members.getD ta.target.member_id
          dummyMember).handle_action ta.action).1 = false →
      minimax_expand node k =
        ExpansionResult.Exhausted { node with action_iter := some it₂ }) := by
  constructor
  · exact aiNextLoop_emit_applicable
  · intro node k it it₂ ta hre hai hnx happ
    unfold minimax_expand
    simp only [hre, hai, hnx, happ, Bool.false_eq_true, if_false, Option.isNone_some]

/-- C5 witness: on the concrete node whose opponent stores the live member
with id 1 at index 0 and the dead member with id 0 at index 1, the first
pulled move targets the applicable member id 1, the engine looks the
target up by id as an index, the effect fails on the dead member, and the
expansion reports exhaustion with the advanced generator stored. -/
theorem C5_amended_witness :
    (∃ t : TargetedAction, AppliedAction.Targeted taC5 = AppliedAction.Targeted t ∧
      ∃ tm ∈ itC5.opponent.members, tm.is_applicable t.action = true ∧
        t.target = ⟨itC5.opponent.id, tm.id⟩) ∧
    minimax_expand nodeC5 1 =
      ExpansionResult.Exhausted { nodeC5 with action_iter := some itC5adv } :=
  ⟨C5_amended.1 (aiMeasure itC5 + 1) itC5 (AppliedAction.Targeted taC5) itC5adv
      (by with_unfolding_all decide),
    C5_amended.2 nodeC5 1 itC5 itC5adv taC5 (by decide) rfl
      (by with_unfolding_all decide) (by with_unfolding_all decide)⟩

/-- C6 witness: on a concrete pair of parties (one acting member dead, all
targets alive) the non-empty-opponent hypothesis holds and the emission
equals the canonical enumeration. -/
theorem C6_amended_witness :
    1 ≤ oppW6.members.length ∧
    emitList (ActionIterator.new curW6 oppW6) = canonicalMoves curW6 oppW6 :=
  ⟨by with_unfolding_all decide,
    (C6_amended curW6 oppW6 (by with_unfolding_all decide)).1⟩

end Autobattler
